import Mathlib

/-!
# Verification of the `hash_cons` interning table

A shallow embedding of the `hash_cons` crate (files `src/single_threaded.rs`
and `src/thread_safe.rs`): a hash-consing table mapping values to weak
references to reference-counted slots (`Inner<T>`), with handle (`Hc<T>`)
lifecycle, drop-driven entry removal (auto-cleanup) and an explicit sweep
(`cleanup`).

The model makes the reference-counting state explicit and sequentializes the
operations (the thread-safe variant serializes all map operations behind one
writer lock, so its sequential behaviour is given by the same step functions):

* a `SlotR` is a live `Inner<T>` allocation: its id (allocation identity),
  the value it stores, and its strong count (`Rc`/`Arc` strong references:
  user handles plus references held from inside other interned values);
* an `EntryR` is one entry of the `HashMap<Rc<T>, Weak<Inner<T>>>`: the key
  value, the id of the weak reference's target slot (`tgt`), and the id of
  the slot whose creation allocated the `Rc<T>`/`Arc<T>` that is this entry's
  key (`inst`). The latter tracks the sharing of the value allocation between
  the map key and `Inner::elem` (`intern` creates one `Rc<T>` and, on the
  vacant path, uses clones of it both as key and as `elem`; on the
  stale-entry path the old key allocation is kept while the new slot gets a
  fresh allocation of an equal value);
* nesting of interned values (values of type `T` that contain `Hc<T>`
  handles, as in the crate's `BoolExpr` examples and tests) is modelled by a
  function `refs : V → List Nat` giving the multiset of slot ids a value
  holds strong references to; dropping the last owner of a value releases
  those references, which can cascade.

A value allocation (`Rc<T>`/`Arc<T>` contents) with id `j` is alive while the
slot `j` is live or some map entry has `inst = j`; when its last owner goes,
its `refs` are released.
-/

set_option maxHeartbeats 1000000
set_option linter.unusedSectionVars false

namespace HashCons

/-- One live `Inner<T>` allocation: id, stored value, strong count. -/
structure SlotR (V : Type) where
  sid : Nat
  val : V
  strong : Nat
deriving DecidableEq

/-- One entry of the store's map: key value, weak-reference target slot id,
and the id of the slot whose interning allocated this entry's key. -/
structure EntryR (V : Type) where
  key : V
  tgt : Nat
  inst : Nat
deriving DecidableEq

/-- The store: live slots, the map, and a fresh-id counter. -/
structure St (V : Type) where
  slots : List (SlotR V)
  map : List (EntryR V)
  next : Nat
deriving DecidableEq

variable {V : Type} [DecidableEq V]

/-- A fresh table (`HCTable::new` / `HcTable::new`). -/
def St.empty : St V := ⟨[], [], 0⟩

/-- Find the live slot with id `i`. -/
def findSlot (st : St V) (i : Nat) : Option (SlotR V) :=
  st.slots.find? (fun s => decide (s.sid = i))

/-- Whether the weak reference to slot `i` would upgrade
(`Weak::upgrade` succeeds iff the allocation is still strongly owned). -/
def slotLive (st : St V) (i : Nat) : Bool := (findSlot st i).isSome

/-- Strong count of slot `i` (`Weak::strong_count`); 0 if the slot is gone. -/
def strongOf (st : St V) (i : Nat) : Nat :=
  match findSlot st i with
  | some s => s.strong
  | none => 0

/-- The value stored in slot `i` (`Inner::elem`). -/
def slotVal (st : St V) (i : Nat) : Option V := (findSlot st i).map (·.val)

/-- Decrement the strong count of slot `i` (dropping one strong reference). -/
def decSlot (st : St V) (i : Nat) : St V :=
  { st with slots := st.slots.map (fun s => if s.sid = i then { s with strong := s.strong - 1 } else s) }

/-- Increment the strong count of slot `i` (cloning a strong reference). -/
def incSlot (st : St V) (i : Nat) : St V :=
  { st with slots := st.slots.map (fun s => if s.sid = i then { s with strong := s.strong + 1 } else s) }

/-- Clone one strong reference for each id in `rs` (building a value out of
clones of existing handles). -/
def acquire (st : St V) (rs : List Nat) : St V := rs.foldl incSlot st

/-- Deallocate slot `i` (the `Rc<Inner>`/`Arc<Inner>` strong count reached 0). -/
def removeSlot (st : St V) (i : Nat) : St V :=
  { st with slots := st.slots.filter (fun s => decide (s.sid ≠ i)) }

/-- Whether the value allocation created for slot `i` is still owned: either
slot `i` is live (its `elem` owns it) or some map entry's key is that
allocation. -/
def instAlive (st : St V) (i : Nat) : Bool :=
  slotLive st i || st.map.any (fun e => decide (e.inst = i))

/-- `Inner::drop`'s `remove_entry(&key)`: remove the first map entry whose key
equals `v`; report the references the removed key releases if dropping the
key was the last owner of its value allocation. -/
def removeEntryByKey (refs : V → List Nat) (st : St V) (v : V) : St V × List Nat :=
  match st.map.find? (fun e => decide (e.key = v)) with
  | none => (st, [])
  | some e =>
    let st' : St V := { st with map := st.map.eraseP (fun e' => decide (e'.key = v)) }
    if instAlive st' e.inst then (st', []) else (st', refs e.key)

/-- Total strong count over all live slots (termination measure). -/
def sumStrong (st : St V) : Nat := (st.slots.map (·.strong)).sum

theorem sum_map_le_of_le {α : Type} {l : List α} {f g : α → Nat}
    (h : ∀ a ∈ l, f a ≤ g a) : (l.map f).sum ≤ (l.map g).sum := by
  induction l with
  | nil => simp
  | cons a l ih =>
    simp only [List.map_cons, List.sum_cons]
    exact Nat.add_le_add (h a (by simp)) (ih (fun b hb => h b (by simp [hb])))

theorem sum_map_lt_of_mem {α : Type} {l : List α} {f g : α → Nat}
    (h : ∀ a ∈ l, f a ≤ g a) {a : α} (ha : a ∈ l) (hlt : f a < g a) :
    (l.map f).sum < (l.map g).sum := by
  induction l with
  | nil => cases ha
  | cons b l ih =>
    simp only [List.map_cons, List.sum_cons]
    rcases List.mem_cons.mp ha with rfl | hmem
    · exact add_lt_add_of_lt_of_le hlt
        (sum_map_le_of_le (fun c hc => h c (by simp [hc])))
    · exact add_lt_add_of_le_of_lt (h b (by simp))
        (ih (fun c hc => h c (by simp [hc])) hmem)

theorem removeEntryByKey_slots (refs : V → List Nat) (st : St V) (v : V) :
    (removeEntryByKey refs st v).1.slots = st.slots := by
  unfold removeEntryByKey
  cases h : st.map.find? (fun e => decide (e.key = v)) with
  | none => rfl
  | some e =>
    simp only []
    split <;> rfl

omit [DecidableEq V] in
theorem sumStrong_removeSlot_le (st : St V) (i : Nat) :
    sumStrong (removeSlot st i) ≤ sumStrong st := by
  unfold sumStrong removeSlot
  simp only []
  induction st.slots with
  | nil => simp
  | cons s l ih =>
    by_cases hs : s.sid = i
    · simp only [List.filter_cons, decide_eq_true_eq]
      rw [if_neg (by simp [hs])]
      simp only [List.map_cons, List.sum_cons]
      omega
    · simp only [List.filter_cons, decide_eq_true_eq]
      rw [if_pos (by simp [hs])]
      simp only [List.map_cons, List.sum_cons]
      omega

omit [DecidableEq V] in
theorem length_removeSlot_lt (st : St V) {i : Nat} {s : SlotR V}
    (h : findSlot st i = some s) :
    (removeSlot st i).slots.length < st.slots.length := by
  have hmem : s ∈ st.slots := List.mem_of_find?_eq_some h
  have hsid : s.sid = i := by
    have := List.find?_some h
    simpa using this
  unfold removeSlot
  simp only []
  have : ¬ (decide (s.sid ≠ i) = true) := by simp [hsid]
  calc (st.slots.filter (fun s => decide (s.sid ≠ i))).length
      < st.slots.length := by
        apply List.length_filter_lt_length_iff_exists.mpr
        exact ⟨s, hmem, this⟩

omit [DecidableEq V] in
theorem sumStrong_decSlot_lt (st : St V) {i : Nat} {s : SlotR V}
    (h : findSlot st i = some s) (h2 : 2 ≤ s.strong) :
    sumStrong (decSlot st i) < sumStrong st := by
  have hmem : s ∈ st.slots := List.mem_of_find?_eq_some h
  have hsid : s.sid = i := by
    have := List.find?_some h
    simpa using this
  unfold sumStrong decSlot
  simp only [List.map_map]
  refine sum_map_lt_of_mem ?_ hmem ?_
  · intro a _
    dsimp [Function.comp]
    by_cases ha : a.sid = i
    · rw [if_pos ha]; dsimp; omega
    · rw [if_neg ha]
  · dsimp [Function.comp]
    rw [if_pos hsid]; dsimp; omega

/-- The map mutation `Inner::drop` performs when slot dies: in auto-cleanup
mode it removes the entry keyed by the slot's value; otherwise (`Drop` not
compiled, thread-safe manual configuration) the map is untouched. -/
def dropEntryStep (refs : V → List Nat) (auto : Bool) (st : St V) (v : V) : St V × List Nat :=
  match auto with
  | true => removeEntryByKey refs st v
  | false => (st, [])

theorem dropEntryStep_slots (refs : V → List Nat) (auto : Bool) (st : St V) (v : V) :
    (dropEntryStep refs auto st v).1.slots = st.slots := by
  cases auto
  · rfl
  · exact removeEntryByKey_slots refs st v

theorem dropEntryStep_false (refs : V → List Nat) (st : St V) (v : V) :
    dropEntryStep refs false st v = (st, []) := rfl

/-- Release a worklist of strong references (each element of `todo` is one
strong reference being dropped). When a slot's last strong reference goes,
the slot dies: in auto-cleanup mode (`auto = true`) `Inner::drop` removes the
map entry keyed by the slot's value (single-threaded variant: always;
thread-safe variant: only with the auto-cleanup feature), then the `Inner`
allocation is freed and, if the slot's value allocation loses its last owner,
the references held inside that value are released in turn (depth-first, as
nested `Hc` fields drop). -/
def releaseRefs (refs : V → List Nat) (auto : Bool) (st : St V) : List Nat → St V
  | [] => st
  | r :: rest =>
    match hf : findSlot st r with
    | none => releaseRefs refs auto st rest
    | some s =>
      if s.strong ≤ 1 then
        let p := dropEntryStep refs auto st s.val
        let st2 := removeSlot p.1 r
        let extra := if instAlive st2 r then ([] : List Nat) else refs s.val
        releaseRefs refs auto st2 (p.2 ++ extra ++ rest)
      else
        releaseRefs refs auto (decSlot st r) rest
termination_by todo => (sumStrong st, st.slots.length, todo.length)
decreasing_by
  · exact Prod.Lex.right _ (Prod.Lex.right _ (by simp))
  · have hslots : p.1.slots = st.slots := dropEntryStep_slots refs auto st s.val
    have h1 : sumStrong st2 ≤ sumStrong st := by
      have hps : sumStrong p.1 = sumStrong st := by unfold sumStrong; rw [hslots]
      calc sumStrong st2 ≤ sumStrong p.1 := sumStrong_removeSlot_le p.1 r
        _ = sumStrong st := hps
    have h2 : st2.slots.length < st.slots.length := by
      have hf' : findSlot p.1 r = some s := by
        unfold findSlot at hf ⊢
        rw [hslots]; exact hf
      have := length_removeSlot_lt p.1 hf'
      simpa [hslots] using this
    rcases Nat.lt_or_ge (sumStrong st2) (sumStrong st) with hlt | hge
    · exact Prod.Lex.left _ _ hlt
    · have heq : sumStrong st2 = sumStrong st := Nat.le_antisymm h1 hge
      rw [heq]
      exact Prod.Lex.right _ (Prod.Lex.left _ _ h2)
  · have : sumStrong (decSlot st r) < sumStrong st :=
      sumStrong_decSlot_lt st hf (by omega)
    exact Prod.Lex.left _ _ this

/-- `HCTable::intern` / `HcTable::intern`: look the value up; on a live hit
return the existing slot (the argument value is discarded, releasing the
references it holds); on a stale hit allocate a fresh slot, overwrite the
entry's weak reference (the key is reused); on a vacant entry allocate a
fresh slot and insert it. The argument value's references must already be
counted in `st` (the caller owns the value it passes in). -/
def intern (refs : V → List Nat) (auto : Bool) (v : V) (st : St V) : Nat × St V :=
  match st.map.find? (fun e => decide (e.key = v)) with
  | some e =>
    if slotLive st e.tgt then
      (e.tgt, releaseRefs refs auto (incSlot st e.tgt) (refs v))
    else
      (st.next, { slots := ⟨st.next, v, 1⟩ :: st.slots,
                  map := st.map.map (fun e' => if decide (e'.key = v) then { e' with tgt := st.next } else e'),
                  next := st.next + 1 })
  | none =>
    (st.next, { slots := ⟨st.next, v, 1⟩ :: st.slots,
                map := st.map ++ [⟨v, st.next, st.next⟩],
                next := st.next + 1 })

/-- `hashcons(v)` at the value level: the caller clones one handle per
reference inside `v` (building the value), then interns it. Returns the slot
id the returned `Hc` points to, and the new table state. -/
def hashconsV (refs : V → List Nat) (auto : Bool) (v : V) (st : St V) : Nat × St V :=
  intern refs auto v (acquire st (refs v))

/-- Dropping one `Hc` handle to slot `h`. -/
def dropHandle (refs : V → List Nat) (auto : Bool) (h : Nat) (st : St V) : St V :=
  releaseRefs refs auto st [h]

/-- `len()` / `size()`: number of map entries. -/
def lenT (st : St V) : Nat := st.map.length

/-- The map entries whose weak reference no longer upgrades. -/
def staleEntries (st : St V) : List (EntryR V) :=
  st.map.filter (fun e => !slotLive st e.tgt)

/-- The map entries whose weak reference still upgrades. -/
def keptEntries (st : St V) : List (EntryR V) :=
  st.map.filter (fun e => slotLive st e.tgt)

theorem releaseRefs_nil (refs : V → List Nat) (auto : Bool) (st : St V) :
    releaseRefs refs auto st [] = st := by
  rw [releaseRefs]

theorem releaseRefs_cons_absent (refs : V → List Nat) (auto : Bool) (st : St V)
    {r : Nat} {rest : List Nat} (hf : findSlot st r = none) :
    releaseRefs refs auto st (r :: rest) = releaseRefs refs auto st rest := by
  rw [releaseRefs]
  split
  · rfl
  · rename_i s hf2; rw [hf] at hf2; cases hf2

theorem releaseRefs_cons_dead (refs : V → List Nat) (auto : Bool) (st : St V)
    {r : Nat} {rest : List Nat} {s : SlotR V}
    (hf : findSlot st r = some s) (h1 : s.strong ≤ 1) :
    releaseRefs refs auto st (r :: rest) =
      releaseRefs refs auto (removeSlot (dropEntryStep refs auto st s.val).1 r)
        ((dropEntryStep refs auto st s.val).2 ++
          (if instAlive (removeSlot (dropEntryStep refs auto st s.val).1 r) r then [] else refs s.val)
          ++ rest) := by
  rw [releaseRefs]
  split
  · rename_i hf2; rw [hf] at hf2; cases hf2
  · rename_i s' hf2
    rw [hf] at hf2
    cases hf2
    rw [if_pos h1]

theorem releaseRefs_cons_live (refs : V → List Nat) (auto : Bool) (st : St V)
    {r : Nat} {rest : List Nat} {s : SlotR V}
    (hf : findSlot st r = some s) (h1 : ¬ s.strong ≤ 1) :
    releaseRefs refs auto st (r :: rest) = releaseRefs refs auto (decSlot st r) rest := by
  rw [releaseRefs]
  split
  · rename_i hf2; rw [hf] at hf2; cases hf2
  · rename_i s' hf2
    rw [hf] at hf2
    cases hf2
    rw [if_neg h1]

theorem releaseRefs_false_map (refs : V → List Nat) (st : St V) (todo : List Nat) :
    (releaseRefs refs false st todo).map = st.map := by
  induction st, todo using releaseRefs.induct refs false with
  | case1 st => rw [releaseRefs_nil]
  | case2 st r rest hf ih => rw [releaseRefs_cons_absent refs false st hf]; exact ih
  | case3 st r rest s hf hstr p st2 extra ih =>
    rw [releaseRefs_cons_dead refs false st hf hstr]
    have h2 : st.map = st2.map := by
      simp [st2, p, dropEntryStep_false, removeSlot]
    rw [h2]
    exact ih
  | case4 st r rest s hf hstr ih =>
    rw [releaseRefs_cons_live refs false st hf hstr]
    rw [ih]
    simp [decSlot]

/-- One removal pass of the manual sweep: drop the stale entries found in
`es` from the state, releasing (in list order) the references held by each
removed key whose value allocation thereby loses its last owner. -/
def sweepRelease (refs : V → List Nat) (st0 : St V) (es : List (EntryR V)) : St V :=
  es.foldl
    (fun acc e => if instAlive acc e.inst then acc else releaseRefs refs false acc (refs e.key))
    st0

theorem sweepRelease_map (refs : V → List Nat) (st0 : St V) (es : List (EntryR V)) :
    (sweepRelease refs st0 es).map = st0.map := by
  induction es generalizing st0 with
  | nil => rfl
  | cons e es ih =>
    unfold sweepRelease
    simp only [List.foldl_cons]
    unfold sweepRelease at ih
    by_cases h : instAlive st0 e.inst
    · rw [if_pos h]; exact ih st0
    · rw [if_neg h]
      rw [ih (releaseRefs refs false st0 (refs e.key))]
      exact releaseRefs_false_map refs st0 (refs e.key)

theorem keptEntries_length_lt (st : St V) (h : (staleEntries st).isEmpty = false) :
    (keptEntries st).length < st.map.length := by
  have hne : staleEntries st ≠ [] := by
    intro hnil; rw [hnil] at h; simp at h
  rcases List.exists_mem_of_ne_nil _ hne with ⟨e, he⟩
  have hm := List.mem_filter.mp he
  apply List.length_filter_lt_length_iff_exists.mpr
  exact ⟨e, hm.1, by simpa using hm.2⟩

/-- `InnerTable::cleanup` of the thread-safe variant (manual configuration):
loop: one `retain` pass removes every entry whose weak reference has strong
count 0 (dropping the removed keys releases the references inside dead value
allocations); repeat until a pass removes nothing. -/
def cleanupTS (refs : V → List Nat) (st : St V) : St V :=
  if (staleEntries st).isEmpty then st
  else
    cleanupTS refs (sweepRelease refs { st with map := keptEntries st } (staleEntries st))
termination_by st.map.length
decreasing_by
  rename_i h
  rw [sweepRelease_map]
  simp only []
  exact keptEntries_length_lt st (by simpa using h)

/-- Drop a list of strong references without any map mutation permitted:
models the nested `Hc` drops that run while `cleanup` of the single-threaded
variant holds the `RefCell` borrow. A drop that brings a strong count to 0
would run `Inner::drop`, which calls `borrow_mut` on the already-borrowed
table and panics; this is modelled as `none`. -/
def decsOrPanic (st : St V) : List Nat → Option (St V)
  | [] => some st
  | r :: rest =>
    match findSlot st r with
    | none => decsOrPanic st rest
    | some s => if s.strong ≤ 1 then none else decsOrPanic (decSlot st r) rest

/-- Process the removed (stale) entries of the single-threaded single
`retain` pass in order, dropping each removed key. -/
def sweepOnceST (refs : V → List Nat) : Option (St V) → List (EntryR V) → Option (St V)
  | none, _ => none
  | some st, [] => some st
  | some st, e :: es =>
    sweepOnceST refs (if instAlive st e.inst then some st else decsOrPanic st (refs e.key)) es

/-- `InnerTable::cleanup` of the single-threaded variant: a single
`retain(|_, weak| weak.strong_count() > 0)` pass under the `RefCell` borrow;
it does not loop. `none` models the `BorrowMutError` panic raised when a
removed key's drop cascades into `Inner::drop`. -/
def cleanupST (refs : V → List Nat) (st : St V) : Option (St V) :=
  sweepOnceST refs (some { st with map := keptEntries st }) (staleEntries st)

/-- The list of distinct values in `vs`, in order of first occurrence. -/
def seenList : List V → List V
  | vs => vs.foldl (fun acc v => if v ∈ acc then acc else acc ++ [v]) []

/-- Run a sequence of `hashcons` calls on a fresh table, keeping every
returned handle alive (no drops). -/
def runSeq (refs : V → List Nat) (auto : Bool) (vs : List V) : St V :=
  vs.foldl (fun st v => (hashconsV refs auto v st).2) St.empty

/-! ## Pointwise lemmas about the state operations -/

theorem find?_eq_of_pointwise {α : Type} {p q : α → Bool} (l : List α)
    (h : ∀ a, p a = q a) : l.find? p = l.find? q := by
  have : p = q := funext h
  rw [this]

theorem find?_map_pred {α : Type} {p : α → Bool} (f : α → α) (l : List α)
    (hp : ∀ x, p (f x) = p x) : (l.map f).find? p = (l.find? p).map f := by
  induction l with
  | nil => rfl
  | cons a l ih =>
    simp only [List.map_cons, List.find?_cons]
    rw [hp a]
    cases h : p a
    · exact ih
    · rfl

theorem find?_filter_true {α : Type} {p q : α → Bool} (l : List α)
    (h : ∀ a, p a = true → q a = true) :
    (l.filter q).find? p = l.find? p := by
  induction l with
  | nil => rfl
  | cons a l ih =>
    rw [List.filter_cons]
    cases hq : q a with
    | false =>
      have hp : p a = false := by
        cases hpa : p a
        · rfl
        · rw [h a hpa] at hq; cases hq
      rw [if_neg (by simp)]
      have h2 : List.find? p (a :: l) = List.find? p l := by
        simp [List.find?_cons, hp]
      rw [h2]; exact ih
    | true =>
      rw [if_pos rfl]
      cases hp : p a with
      | false =>
        have h1 : List.find? p (a :: List.filter q l) = List.find? p (List.filter q l) := by
          simp [List.find?_cons, hp]
        have h2 : List.find? p (a :: l) = List.find? p l := by
          simp [List.find?_cons, hp]
        rw [h1, h2]; exact ih
      | true =>
        have h1 : List.find? p (a :: List.filter q l) = some a := by
          simp [List.find?_cons, hp]
        have h2 : List.find? p (a :: l) = some a := by
          simp [List.find?_cons, hp]
        rw [h1, h2]

omit [DecidableEq V] in
theorem decSlot_map (st : St V) (r : Nat) : (decSlot st r).map = st.map := rfl

omit [DecidableEq V] in
theorem decSlot_next (st : St V) (r : Nat) : (decSlot st r).next = st.next := rfl

omit [DecidableEq V] in
theorem incSlot_map (st : St V) (r : Nat) : (incSlot st r).map = st.map := rfl

omit [DecidableEq V] in
theorem incSlot_next (st : St V) (r : Nat) : (incSlot st r).next = st.next := rfl

omit [DecidableEq V] in
theorem removeSlot_map (st : St V) (r : Nat) : (removeSlot st r).map = st.map := rfl

omit [DecidableEq V] in
theorem removeSlot_next (st : St V) (r : Nat) : (removeSlot st r).next = st.next := rfl

omit [DecidableEq V] in
theorem findSlot_decSlot (st : St V) (r i : Nat) :
    findSlot (decSlot st r) i =
      (findSlot st i).map (fun s => if s.sid = r then { s with strong := s.strong - 1 } else s) := by
  unfold findSlot decSlot
  simp only []
  rw [find?_map_pred]
  intro x
  by_cases hx : x.sid = r
  · rw [if_pos hx]
  · rw [if_neg hx]

omit [DecidableEq V] in
theorem findSlot_incSlot (st : St V) (r i : Nat) :
    findSlot (incSlot st r) i =
      (findSlot st i).map (fun s => if s.sid = r then { s with strong := s.strong + 1 } else s) := by
  unfold findSlot incSlot
  simp only []
  rw [find?_map_pred]
  intro x
  by_cases hx : x.sid = r
  · rw [if_pos hx]
  · rw [if_neg hx]

omit [DecidableEq V] in
theorem findSlot_sid {st : St V} {i : Nat} {s : SlotR V} (h : findSlot st i = some s) :
    s.sid = i := by
  have := List.find?_some h
  simpa using this

omit [DecidableEq V] in
theorem findSlot_mem {st : St V} {i : Nat} {s : SlotR V} (h : findSlot st i = some s) :
    s ∈ st.slots := List.mem_of_find?_eq_some h

omit [DecidableEq V] in
theorem findSlot_removeSlot_self (st : St V) (r : Nat) :
    findSlot (removeSlot st r) r = none := by
  unfold findSlot removeSlot
  simp only []
  rw [List.find?_eq_none]
  intro a ha
  have := (List.mem_filter.mp ha).2
  simp only [decide_eq_true_eq] at this ⊢
  exact fun h => this h

omit [DecidableEq V] in
theorem findSlot_removeSlot_other (st : St V) {r i : Nat} (h : i ≠ r) :
    findSlot (removeSlot st r) i = findSlot st i := by
  unfold findSlot removeSlot
  simp only []
  apply find?_filter_true
  intro a ha
  simp only [decide_eq_true_eq] at ha ⊢
  rw [ha]
  exact h

omit [DecidableEq V] in
theorem decSlot_absent (st : St V) {r : Nat} (h : findSlot st r = none) :
    decSlot st r = st := by
  unfold decSlot
  have : ∀ s ∈ st.slots, (if s.sid = r then { s with strong := s.strong - 1 } else s) = s := by
    intro s hs
    rw [if_neg]
    intro hsid
    unfold findSlot at h
    rw [List.find?_eq_none] at h
    have h2 := h s hs
    simp only [decide_eq_true_eq] at h2
    exact h2 hsid
  cases st with
  | mk slots mp nx =>
    simp only [St.mk.injEq, and_true]
    calc slots.map _ = slots.map id := List.map_congr_left (by simpa using this)
      _ = slots := List.map_id slots

omit [DecidableEq V] in
theorem findSlot_acquire (st : St V) (rs : List Nat) (i : Nat) :
    findSlot (acquire st rs) i =
      (findSlot st i).map (fun s => { s with strong := s.strong + rs.count i }) := by
  induction rs generalizing st with
  | nil =>
    simp only [acquire, List.foldl_nil, List.count_nil]
    cases h : findSlot st i <;> simp
  | cons r rs ih =>
    show findSlot (acquire (incSlot st r) rs) i = _
    rw [ih (incSlot st r), findSlot_incSlot]
    cases h : findSlot st i with
    | none => rfl
    | some s =>
      have hsid : s.sid = i := findSlot_sid h
      obtain ⟨sid, vl, strg⟩ := s
      simp only at hsid
      subst hsid
      by_cases hri : sid = r
      · subst hri
        simp [List.count_cons]
        omega
      · simp [List.count_cons, hri]

omit [DecidableEq V] in
theorem acquire_map (st : St V) (rs : List Nat) : (acquire st rs).map = st.map := by
  induction rs generalizing st with
  | nil => rfl
  | cons r rs ih => exact ih (incSlot st r)

omit [DecidableEq V] in
theorem acquire_next (st : St V) (rs : List Nat) : (acquire st rs).next = st.next := by
  induction rs generalizing st with
  | nil => rfl
  | cons r rs ih => exact ih (incSlot st r)

omit [DecidableEq V] in
theorem acquire_slots (st : St V) (rs : List Nat) :
    (acquire st rs).slots = st.slots.map (fun s => { s with strong := s.strong + rs.count s.sid }) := by
  induction rs generalizing st with
  | nil =>
    simp only [acquire, List.foldl_nil, List.count_nil]
    rw [show (fun (s : SlotR V) => { s with strong := s.strong + 0 }) = id from funext (by intro s; simp)]
    rw [List.map_id]
  | cons r rs ih =>
    show (acquire (incSlot st r) rs).slots = _
    rw [ih (incSlot st r)]
    show ((st.slots.map _).map _) = _
    rw [List.map_map]
    apply List.map_congr_left
    intro s _
    simp only [Function.comp]
    by_cases hs : s.sid = r
    · rw [if_pos hs]
      simp [List.count_cons, hs]
      omega
    · rw [if_neg hs]
      simp [List.count_cons, hs]

/-- Dropping the references in `rs` when none of them is a last strong
reference: one decrement per element. -/
def subCounts (st : St V) (rs : List Nat) : St V := rs.foldl decSlot st

omit [DecidableEq V] in
theorem subCounts_map (st : St V) (rs : List Nat) : (subCounts st rs).map = st.map := by
  induction rs generalizing st with
  | nil => rfl
  | cons r rs ih => exact ih (decSlot st r)

omit [DecidableEq V] in
theorem subCounts_next (st : St V) (rs : List Nat) : (subCounts st rs).next = st.next := by
  induction rs generalizing st with
  | nil => rfl
  | cons r rs ih => exact ih (decSlot st r)

omit [DecidableEq V] in
theorem subCounts_slots (st : St V) (rs : List Nat) :
    (subCounts st rs).slots = st.slots.map (fun s => { s with strong := s.strong - rs.count s.sid }) := by
  induction rs generalizing st with
  | nil =>
    simp only [subCounts, List.foldl_nil, List.count_nil]
    rw [show (fun (s : SlotR V) => { s with strong := s.strong - 0 }) = id from funext (by intro s; simp)]
    rw [List.map_id]
  | cons r rs ih =>
    show (subCounts (decSlot st r) rs).slots = _
    rw [ih (decSlot st r)]
    show ((st.slots.map _).map _) = _
    rw [List.map_map]
    apply List.map_congr_left
    intro s _
    simp only [Function.comp]
    by_cases hs : s.sid = r
    · rw [if_pos hs]
      simp [List.count_cons, hs]
      omega
    · rw [if_neg hs]
      simp [List.count_cons, hs]

omit [DecidableEq V] in
theorem findSlot_subCounts (st : St V) (rs : List Nat) (i : Nat) :
    findSlot (subCounts st rs) i =
      (findSlot st i).map (fun s => { s with strong := s.strong - rs.count i }) := by
  unfold findSlot
  rw [show (subCounts st rs).slots = _ from subCounts_slots st rs]
  rw [find?_map_pred]
  · cases h : st.slots.find? (fun s => decide (s.sid = i)) with
    | none => rfl
    | some s =>
      have hsid : s.sid = i := by have := List.find?_some h; simpa using this
      simp [hsid]
  · intro x; rfl

omit [DecidableEq V] in
theorem slotLive_subCounts (st : St V) (rs : List Nat) (i : Nat) :
    slotLive (subCounts st rs) i = slotLive st i := by
  unfold slotLive
  rw [findSlot_subCounts]
  cases findSlot st i <;> rfl

omit [DecidableEq V] in
theorem slotLive_acquire (st : St V) (rs : List Nat) (i : Nat) :
    slotLive (acquire st rs) i = slotLive st i := by
  unfold slotLive
  rw [findSlot_acquire]
  cases findSlot st i <;> rfl

omit [DecidableEq V] in
theorem slotLive_incSlot (st : St V) (r i : Nat) :
    slotLive (incSlot st r) i = slotLive st i := by
  unfold slotLive
  rw [findSlot_incSlot]
  cases findSlot st i <;> rfl

/-- No element of the worklist is a last strong reference. -/
def SafeTodo (st : St V) (rs : List Nat) : Prop :=
  ∀ r, findSlot st r = none ∨ rs.count r < strongOf st r

omit [DecidableEq V] in
theorem strongOf_decSlot (st : St V) (r x : Nat) :
    strongOf (decSlot st r) x = if x = r then strongOf st x - 1 else strongOf st x := by
  unfold strongOf
  rw [findSlot_decSlot]
  cases hfx : findSlot st x with
  | none =>
    simp only [Option.map_none']
    split <;> rfl
  | some s =>
    have hsid := findSlot_sid hfx
    simp only [Option.map_some']
    by_cases hxr : x = r
    · subst hxr
      rw [if_pos hsid, if_pos rfl]
    · rw [if_neg (by rw [hsid]; exact hxr), if_neg hxr]

omit [DecidableEq V] in
theorem safeTodo_tail {st : St V} {r : Nat} {rest : List Nat}
    (h : SafeTodo st (r :: rest)) : SafeTodo st rest := by
  intro x
  rcases h x with hx | hx
  · exact Or.inl hx
  · right
    calc rest.count x ≤ (r :: rest).count x := by
          rw [List.count_cons]; split <;> omega
      _ < strongOf st x := hx

/-- When no element of the worklist is a last strong reference, releasing is
just decrementing: no slot dies, the map is untouched. -/
theorem releaseRefs_safe (refs : V → List Nat) (auto : Bool) (st : St V)
    (rs : List Nat) (h : SafeTodo st rs) :
    releaseRefs refs auto st rs = subCounts st rs := by
  induction rs generalizing st with
  | nil => rw [releaseRefs_nil]; rfl
  | cons r rest ih =>
    cases hf : findSlot st r with
    | none =>
      rw [releaseRefs_cons_absent refs auto st hf]
      have hd : decSlot st r = st := decSlot_absent st hf
      show _ = subCounts (decSlot st r) rest
      rw [hd]
      exact ih st (safeTodo_tail h)
    | some s =>
      have hstr : ¬ s.strong ≤ 1 := by
        rcases h r with hx | hx
        · rw [hf] at hx; cases hx
        · have : strongOf st r = s.strong := by unfold strongOf; rw [hf]
          rw [this] at hx
          have : 1 ≤ (r :: rest).count r := by simp [List.count_cons]
          omega
      rw [releaseRefs_cons_live refs auto st hf hstr]
      show _ = subCounts (decSlot st r) rest
      apply ih
      intro x
      rcases h x with hx | hx
      · left
        rw [findSlot_decSlot, hx]
        rfl
      · right
        rw [strongOf_decSlot]
        by_cases hxr : x = r
        · subst hxr
          rw [if_pos rfl]
          simp [List.count_cons] at hx
          omega
        · rw [if_neg hxr]
          have hle : List.count x rest ≤ List.count x (r :: rest) := by
            rw [List.count_cons]; split <;> omega
          omega

theorem releaseRefs_safe_map (refs : V → List Nat) (auto : Bool) (st : St V)
    (rs : List Nat) (h : SafeTodo st rs) :
    (releaseRefs refs auto st rs).map = st.map := by
  rw [releaseRefs_safe refs auto st rs h, subCounts_map]

/-! ## Behaviour of `hashcons` -/

theorem find?_append_none {α : Type} {p : α → Bool} {l₁ : List α} (l₂ : List α)
    (h : l₁.find? p = none) : (l₁ ++ l₂).find? p = l₂.find? p := by
  induction l₁ with
  | nil => rfl
  | cons a l ih =>
    rw [List.find?_cons] at h
    rw [List.cons_append, List.find?_cons]
    cases hp : p a with
    | false =>
      rw [hp] at h
      exact ih h
    | true =>
      rw [hp] at h
      exact Option.noConfusion h

/-- Every live slot holds at least one strong reference (in Rust an `Inner`
with strong count 0 has been deallocated). -/
def StrongPos (st : St V) : Prop := ∀ s ∈ st.slots, 1 ≤ s.strong

omit [DecidableEq V] in
theorem strongOf_incSlot_ge (st : St V) (r x : Nat) :
    strongOf st x ≤ strongOf (incSlot st r) x := by
  unfold strongOf
  rw [findSlot_incSlot]
  cases findSlot st x with
  | none => simp
  | some s =>
    simp only [Option.map_some']
    split <;> simp

omit [DecidableEq V] in
theorem safeTodo_after_acquire (st : St V) (rs : List Nat) (t : Nat)
    (hpos : StrongPos st) :
    SafeTodo (incSlot (acquire st rs) t) rs := by
  intro r
  cases hf : findSlot st r with
  | none =>
    left
    rw [findSlot_incSlot, findSlot_acquire, hf]
    rfl
  | some s =>
    right
    have h1 : 1 ≤ s.strong := hpos s (findSlot_mem hf)
    have hacq : strongOf (acquire st rs) r = s.strong + rs.count r := by
      unfold strongOf
      rw [findSlot_acquire, hf]
      rfl
    have hinc := strongOf_incSlot_ge (acquire st rs) t r
    omega

/-- The three paths of `intern` (cache hit, stale entry, vacant entry),
expressed over the caller's state. -/
theorem hashconsV_cases (refs : V → List Nat) (auto : Bool) (v : V) (st : St V) :
    (∃ e, st.map.find? (fun e' => decide (e'.key = v)) = some e ∧ slotLive st e.tgt = true ∧
       hashconsV refs auto v st =
         (e.tgt, releaseRefs refs auto (incSlot (acquire st (refs v)) e.tgt) (refs v)))
  ∨ (∃ e, st.map.find? (fun e' => decide (e'.key = v)) = some e ∧ slotLive st e.tgt = false ∧
       hashconsV refs auto v st =
         (st.next, { slots := ⟨st.next, v, 1⟩ :: (acquire st (refs v)).slots,
                     map := st.map.map (fun e' => if decide (e'.key = v) then { e' with tgt := st.next } else e'),
                     next := st.next + 1 }))
  ∨ (st.map.find? (fun e' => decide (e'.key = v)) = none ∧
       hashconsV refs auto v st =
         (st.next, { slots := ⟨st.next, v, 1⟩ :: (acquire st (refs v)).slots,
                     map := st.map ++ [⟨v, st.next, st.next⟩],
                     next := st.next + 1 })) := by
  unfold hashconsV intern
  cases hfind : st.map.find? (fun e' => decide (e'.key = v)) with
  | some e =>
    have hm : (acquire st (refs v)).map.find? (fun e' => decide (e'.key = v)) = some e := by
      rw [acquire_map]; exact hfind
    cases hlive : slotLive st e.tgt with
    | true =>
      left
      refine ⟨e, rfl, hlive, ?_⟩
      simp [hfind, acquire_map, slotLive_acquire, hlive]
    | false =>
      right; left
      refine ⟨e, rfl, hlive, ?_⟩
      simp [hfind, slotLive_acquire, hlive, acquire_map, acquire_next]
  | none =>
    have hm : (acquire st (refs v)).map.find? (fun e' => decide (e'.key = v)) = none := by
      rw [acquire_map]; exact hfind
    right; right
    refine ⟨rfl, ?_⟩
    simp [hfind, acquire_map, acquire_next]

omit [DecidableEq V] in
theorem slotLive_cons_self (slots : List (SlotR V)) (mp : List (EntryR V)) (nx j : Nat) (v : V) (k : Nat) :
    slotLive (⟨⟨j, v, k⟩ :: slots, mp, nx⟩ : St V) j = true := by
  unfold slotLive findSlot
  simp [List.find?_cons]

/-- After `hashcons(v)`, the map has an entry keyed `v` whose weak reference
points to the returned slot, and that slot is live. -/
theorem hashconsV_find (refs : V → List Nat) (auto : Bool) (v : V) (st : St V)
    (hpos : StrongPos st) :
    ∃ u, ((hashconsV refs auto v st).2).map.find? (fun e' => decide (e'.key = v)) = some u ∧
      u.tgt = (hashconsV refs auto v st).1 ∧
      slotLive (hashconsV refs auto v st).2 u.tgt = true := by
  rcases hashconsV_cases refs auto v st with
    ⟨e, hfind, hlive, heq⟩ | ⟨e, hfind, hlive, heq⟩ | ⟨hfind, heq⟩
  · have hsafe := safeTodo_after_acquire st (refs v) e.tgt hpos
    have hrel := releaseRefs_safe refs auto _ (refs v) hsafe
    refine ⟨e, ?_, ?_, ?_⟩
    · rw [heq]
      simp only []
      rw [hrel, subCounts_map, incSlot_map, acquire_map]
      exact hfind
    · rw [heq]
    · rw [heq]
      simp only []
      rw [hrel, slotLive_subCounts, slotLive_incSlot, slotLive_acquire]
      exact hlive
  · have hkey : e.key = v := by
      have := List.find?_some hfind
      simpa using this
    refine ⟨{ e with tgt := st.next }, ?_, ?_, ?_⟩
    · rw [heq]
      simp only []
      rw [find?_map_pred]
      · rw [hfind]
        simp only [Option.map_some']
        rw [if_pos (by simp [hkey])]
      · intro x
        by_cases hx : decide (x.key = v) = true
        · rw [if_pos hx]
        · rw [if_neg hx]
    · rw [heq]
    · rw [heq]
      exact slotLive_cons_self _ _ _ _ _ _
  · refine ⟨⟨v, st.next, st.next⟩, ?_, ?_, ?_⟩
    · rw [heq]
      simp only []
      rw [find?_append_none _ hfind]
      simp [List.find?_cons]
    · rw [heq]
    · rw [heq]
      exact slotLive_cons_self _ _ _ _ _ _

omit [DecidableEq V] in
theorem slotVal_subCounts (st : St V) (rs : List Nat) (i : Nat) :
    slotVal (subCounts st rs) i = slotVal st i := by
  unfold slotVal
  rw [findSlot_subCounts]
  cases findSlot st i <;> rfl

omit [DecidableEq V] in
theorem slotVal_acquire (st : St V) (rs : List Nat) (i : Nat) :
    slotVal (acquire st rs) i = slotVal st i := by
  unfold slotVal
  rw [findSlot_acquire]
  cases findSlot st i <;> rfl

omit [DecidableEq V] in
theorem slotVal_incSlot (st : St V) (r i : Nat) :
    slotVal (incSlot st r) i = slotVal st i := by
  unfold slotVal
  rw [findSlot_incSlot]
  cases hc : findSlot st i with
  | none => rfl
  | some s =>
    simp only [Option.map_some']
    split <;> rfl

omit [DecidableEq V] in
theorem slotVal_cons_self (slots : List (SlotR V)) (mp : List (EntryR V)) (nx j : Nat) (v : V) (k : Nat) :
    slotVal (⟨⟨j, v, k⟩ :: slots, mp, nx⟩ : St V) j = some v := by
  unfold slotVal findSlot
  simp [List.find?_cons]

omit [DecidableEq V] in
theorem strongOf_cons_self (slots : List (SlotR V)) (mp : List (EntryR V)) (nx j : Nat) (v : V) (k : Nat) :
    strongOf (⟨⟨j, v, k⟩ :: slots, mp, nx⟩ : St V) j = k := by
  unfold strongOf findSlot
  simp [List.find?_cons]

/-- `hashcons` preserves positivity of all strong counts. -/
theorem strongPos_hashconsV (refs : V → List Nat) (auto : Bool) (v : V) (st : St V)
    (hpos : StrongPos st) : StrongPos (hashconsV refs auto v st).2 := by
  have hacq : ∀ s' ∈ (acquire st (refs v)).slots, 1 ≤ s'.strong := by
    intro s' hs'
    rw [acquire_slots] at hs'
    rcases List.mem_map.mp hs' with ⟨s, hs, rfl⟩
    have := hpos s hs
    simp only []
    omega
  rcases hashconsV_cases refs auto v st with
    ⟨e, hfind, hlive, heq⟩ | ⟨e, hfind, hlive, heq⟩ | ⟨hfind, heq⟩
  · intro s' hs'
    rw [heq] at hs'
    simp only [] at hs'
    rw [releaseRefs_safe refs auto _ (refs v) (safeTodo_after_acquire st (refs v) e.tgt hpos)] at hs'
    rw [subCounts_slots] at hs'
    rcases List.mem_map.mp hs' with ⟨s1, hs1, rfl⟩
    have hs1' : s1 ∈ (st.slots.map (fun s => { s with strong := s.strong + (refs v).count s.sid })).map
        (fun s => if s.sid = e.tgt then { s with strong := s.strong + 1 } else s) := by
      have : (incSlot (acquire st (refs v)) e.tgt).slots =
          ((acquire st (refs v)).slots).map
            (fun s => if s.sid = e.tgt then { s with strong := s.strong + 1 } else s) := rfl
      rw [← acquire_slots, ← this]
      exact hs1
    rcases List.mem_map.mp hs1' with ⟨s0, hs0, rfl⟩
    rcases List.mem_map.mp hs0 with ⟨s, hs, rfl⟩
    obtain ⟨sid, vl, k⟩ := s
    have h1 : 1 ≤ k := hpos _ hs
    by_cases ht : sid = e.tgt
    · simp [ht]
      omega
    · simp [ht]
      omega
  · intro s' hs'
    rw [heq] at hs'
    simp only [] at hs'
    rcases List.mem_cons.mp hs' with rfl | hmem
    · simp
    · exact hacq s' hmem
  · intro s' hs'
    rw [heq] at hs'
    simp only [] at hs'
    rcases List.mem_cons.mp hs' with rfl | hmem
    · simp
    · exact hacq s' hmem

/-- A `hashcons` call whose value already has a live entry returns that
entry's slot. -/
theorem hashconsV_hit (refs : V → List Nat) (auto : Bool) (v : V) (st : St V)
    {u : EntryR V} (hfind : st.map.find? (fun e' => decide (e'.key = v)) = some u)
    (hlive : slotLive st u.tgt = true) :
    (hashconsV refs auto v st).1 = u.tgt := by
  rcases hashconsV_cases refs auto v st with
    ⟨e, hfind2, _, heq⟩ | ⟨e, hfind2, hlive2, _⟩ | ⟨hfind2, _⟩
  · rw [hfind] at hfind2
    cases hfind2
    rw [heq]
  · rw [hfind] at hfind2
    cases hfind2
    rw [hlive] at hlive2
    cases hlive2
  · rw [hfind] at hfind2
    cases hfind2

/-- Every entry with a live target stores the target slot's value as its key
(the map key and `Inner::elem` denote the same value). -/
def KeyMatch (st : St V) : Prop :=
  ∀ e ∈ st.map, slotLive st e.tgt = true → slotVal st e.tgt = some e.key

/-- C1 (deduplication): interning the same value twice, the second call while
the first handle is still alive, returns the same slot (the same `Inner`
allocation), so the two handles are equal and share storage. -/
theorem c1_dedup (refs : V → List Nat) (auto : Bool) (v : V) (st : St V)
    (hpos : StrongPos st) :
    (hashconsV refs auto v (hashconsV refs auto v st).2).1 = (hashconsV refs auto v st).1 ∧
    slotVal (hashconsV refs auto v (hashconsV refs auto v st).2).2
        (hashconsV refs auto v (hashconsV refs auto v st).2).1 =
      slotVal (hashconsV refs auto v (hashconsV refs auto v st).2).2
        (hashconsV refs auto v st).1 := by
  obtain ⟨u, hfind, htgt, hlive⟩ := hashconsV_find refs auto v st hpos
  have h2 := hashconsV_hit refs auto v (hashconsV refs auto v st).2 hfind hlive
  constructor
  · rw [h2, htgt]
  · rw [h2, htgt]

/-- C9: the handle returned by `hashcons(v)` wraps a value equal to `v`
(`get`, deref and borrow all read `Inner::elem`), on the cache-hit path as
well as on the fresh-slot paths. -/
theorem c9_get (refs : V → List Nat) (auto : Bool) (v : V) (st : St V)
    (hpos : StrongPos st) (hkm : KeyMatch st) :
    slotVal (hashconsV refs auto v st).2 (hashconsV refs auto v st).1 = some v := by
  rcases hashconsV_cases refs auto v st with
    ⟨e, hfind, hlive, heq⟩ | ⟨e, hfind, hlive, heq⟩ | ⟨hfind, heq⟩
  · have hkey : e.key = v := by
      have := List.find?_some hfind
      simpa using this
    have hmem : e ∈ st.map := List.mem_of_find?_eq_some hfind
    have hval : slotVal st e.tgt = some e.key := hkm e hmem hlive
    rw [heq]
    simp only []
    rw [releaseRefs_safe refs auto _ (refs v) (safeTodo_after_acquire st (refs v) e.tgt hpos)]
    rw [slotVal_subCounts, slotVal_incSlot, slotVal_acquire, hval, hkey]
  · rw [heq]
    exact slotVal_cons_self _ _ _ _ _ _
  · rw [heq]
    exact slotVal_cons_self _ _ _ _ _ _

/-- C6: interning a value whose entry holds a dead weak reference builds a
fresh slot holding the value, overwrites only the entry's weak reference
(key and key allocation are reused, the map size is unchanged), and returns
a strong handle to the new slot. -/
theorem c6_stale_reintern (refs : V → List Nat) (auto : Bool) (v : V) (st : St V)
    {e : EntryR V} (hfind : st.map.find? (fun e' => decide (e'.key = v)) = some e)
    (hdead : slotLive st e.tgt = false) :
    intern refs auto v st =
      (st.next,
        { slots := ⟨st.next, v, 1⟩ :: st.slots,
          map := st.map.map (fun e' => if decide (e'.key = v) then { e' with tgt := st.next } else e'),
          next := st.next + 1 }) ∧
    lenT (intern refs auto v st).2 = lenT st ∧
    (intern refs auto v st).2.map.find? (fun e' => decide (e'.key = v)) =
      some { e with tgt := st.next } ∧
    slotLive (intern refs auto v st).2 st.next = true ∧
    strongOf (intern refs auto v st).2 st.next = 1 ∧
    slotVal (intern refs auto v st).2 st.next = some v := by
  have hkey : e.key = v := by
    have := List.find?_some hfind
    simpa using this
  have h0 : intern refs auto v st =
      (st.next,
        { slots := ⟨st.next, v, 1⟩ :: st.slots,
          map := st.map.map (fun e' => if decide (e'.key = v) then { e' with tgt := st.next } else e'),
          next := st.next + 1 }) := by
    unfold intern
    simp [hfind, hdead]
  refine ⟨h0, ?_, ?_, ?_, ?_, ?_⟩
  · rw [h0]
    simp [lenT]
  · rw [h0]
    simp only []
    rw [find?_map_pred]
    · rw [hfind]
      simp only [Option.map_some']
      rw [if_pos (by simp [hkey])]
    · intro x
      by_cases hx : decide (x.key = v) = true
      · rw [if_pos hx]
      · rw [if_neg hx]
  · rw [h0]
    exact slotLive_cons_self _ _ _ _ _ _
  · rw [h0]
    exact strongOf_cons_self _ _ _ _ _ _
  · rw [h0]
    exact slotVal_cons_self _ _ _ _ _ _

/-! ## Size under live handles (C5) -/

/-- The keys of the map, in entry order. -/
def keysOf (st : St V) : List V := st.map.map (·.key)

/-- Every entry's weak reference upgrades (no stale entries). -/
def MapLive (st : St V) : Prop := ∀ e ∈ st.map, slotLive st e.tgt = true

omit [DecidableEq V] in
theorem lenT_eq_keysOf_length (st : St V) : lenT st = (keysOf st).length := by
  unfold lenT keysOf
  rw [List.length_map]

theorem mem_keysOf_of_find? {st : St V} {v : V} {e : EntryR V}
    (h : st.map.find? (fun e' => decide (e'.key = v)) = some e) : v ∈ keysOf st := by
  have hkey : e.key = v := by
    have := List.find?_some h
    simpa using this
  have hmem : e ∈ st.map := List.mem_of_find?_eq_some h
  unfold keysOf
  rw [← hkey]
  exact List.mem_map_of_mem _ hmem

theorem not_mem_keysOf_of_find?_none {st : St V} {v : V}
    (h : st.map.find? (fun e' => decide (e'.key = v)) = none) : v ∉ keysOf st := by
  rw [List.find?_eq_none] at h
  intro hv
  unfold keysOf at hv
  rcases List.mem_map.mp hv with ⟨e, hmem, hkey⟩
  have := h e hmem
  simp only [decide_eq_true_eq] at this
  exact this hkey

omit [DecidableEq V] in
theorem slotLive_cons_acquire (st : St V) (rs : List Nat) (j k x : Nat) (v0 : V)
    (mp : List (EntryR V)) (nx : Nat) (h : slotLive st x = true) :
    slotLive (⟨⟨j, v0, k⟩ :: (acquire st rs).slots, mp, nx⟩ : St V) x = true := by
  unfold slotLive findSlot at h ⊢
  simp only [List.find?_cons]
  cases hd : decide (j = x) with
  | true => simp
  | false =>
    rw [acquire_slots, find?_map_pred]
    · cases hf : st.slots.find? (fun s => decide (s.sid = x)) with
      | none => rw [hf] at h; cases h
      | some s => simp
    · intro s; rfl

/-- One `hashcons` step on a state with all entries live: the keys gain `v`
exactly when `v` is new, and the invariants are maintained. -/
theorem hashconsV_keys_step (refs : V → List Nat) (auto : Bool) (v : V) (st : St V)
    (hpos : StrongPos st) (hml : MapLive st) :
    keysOf (hashconsV refs auto v st).2 =
      (if v ∈ keysOf st then keysOf st else keysOf st ++ [v]) ∧
    StrongPos (hashconsV refs auto v st).2 ∧ MapLive (hashconsV refs auto v st).2 := by
  have hpos' := strongPos_hashconsV refs auto v st hpos
  rcases hashconsV_cases refs auto v st with
    ⟨e, hfind, hlive, heq⟩ | ⟨e, hfind, hlive, heq⟩ | ⟨hfind, heq⟩
  · have hsafe := safeTodo_after_acquire st (refs v) e.tgt hpos
    have hrel := releaseRefs_safe refs auto _ (refs v) hsafe
    have hmapeq : (hashconsV refs auto v st).2.map = st.map := by
      rw [heq]
      simp only []
      rw [hrel, subCounts_map, incSlot_map, acquire_map]
    have hliveeq : ∀ x, slotLive (hashconsV refs auto v st).2 x = slotLive st x := by
      intro x
      rw [heq]
      simp only []
      rw [hrel, slotLive_subCounts, slotLive_incSlot, slotLive_acquire]
    refine ⟨?_, hpos', ?_⟩
    · rw [if_pos (mem_keysOf_of_find? hfind)]
      unfold keysOf
      rw [hmapeq]
    · intro e' he'
      rw [hmapeq] at he'
      rw [hliveeq]
      exact hml e' he'
  · exact absurd (hml e (List.mem_of_find?_eq_some hfind)) (by rw [hlive]; simp)
  · refine ⟨?_, hpos', ?_⟩
    · rw [if_neg (not_mem_keysOf_of_find?_none hfind)]
      unfold keysOf
      rw [heq]
      simp only []
      rw [List.map_append]
      rfl
    · intro e' he'
      rw [heq] at he' ⊢
      simp only [] at he' ⊢
      rcases List.mem_append.mp he' with hm | hm
      · exact slotLive_cons_acquire st (refs v) st.next 1 e'.tgt v _ _ (hml e' hm)
      · have : e' = ⟨v, st.next, st.next⟩ := by simpa using hm
        subst this
        exact slotLive_cons_self _ _ _ _ _ _

theorem runSeq_aux (refs : V → List Nat) (auto : Bool) (vs : List V) :
    ∀ st : St V, StrongPos st → MapLive st →
      keysOf (vs.foldl (fun st' v => (hashconsV refs auto v st').2) st) =
        vs.foldl (fun acc v => if v ∈ acc then acc else acc ++ [v]) (keysOf st) ∧
      StrongPos (vs.foldl (fun st' v => (hashconsV refs auto v st').2) st) ∧
      MapLive (vs.foldl (fun st' v => (hashconsV refs auto v st').2) st) := by
  induction vs with
  | nil => exact fun st hpos hml => ⟨rfl, hpos, hml⟩
  | cons v vs ih =>
    intro st hpos hml
    obtain ⟨hkeys, hpos', hml'⟩ := hashconsV_keys_step refs auto v st hpos hml
    simp only [List.foldl_cons]
    have := ih (hashconsV refs auto v st).2 hpos' hml'
    rw [this.1, hkeys]
    exact ⟨rfl, this.2⟩

/-- C5: for any sequence of `hashcons` calls on one table whose handles are
all kept alive, `len()` equals the number of distinct values interned. -/
theorem c5_size_distinct (refs : V → List Nat) (auto : Bool) (vs : List V) :
    lenT (runSeq refs auto vs) = (seenList vs).length := by
  rw [lenT_eq_keysOf_length]
  unfold runSeq seenList
  have h := runSeq_aux refs auto vs St.empty (by intro s hs; cases hs) (by intro e he; cases he)
  rw [h.1]
  rfl

/-! ## The sweep (`cleanup`) -/

theorem cleanupTS_of_staleFree (refs : V → List Nat) (st : St V)
    (h : (staleEntries st).isEmpty = true) : cleanupTS refs st = st := by
  rw [cleanupTS, if_pos h]

/-- After the thread-safe `cleanup`, no entry's weak reference is stale: the
loop stops only once a full pass removes nothing. -/
theorem cleanupTS_staleFree (refs : V → List Nat) (st : St V) :
    staleEntries (cleanupTS refs st) = [] := by
  induction st using cleanupTS.induct refs with
  | case1 st hempty =>
    rw [cleanupTS_of_staleFree refs st hempty]
    exact List.isEmpty_eq_true.mp hempty
  | case2 st hempty ih =>
    rw [cleanupTS, if_neg hempty]
    exact ih

theorem cleanupTS_idem (refs : V → List Nat) (st : St V) :
    cleanupTS refs (cleanupTS refs st) = cleanupTS refs st := by
  apply cleanupTS_of_staleFree
  rw [cleanupTS_staleFree]
  rfl

theorem decsOrPanic_some_spec {st st2 : St V} {rs : List Nat}
    (h : decsOrPanic st rs = some st2) :
    st2.map = st.map ∧ st2.next = st.next ∧ (∀ x, slotLive st2 x = slotLive st x) := by
  induction rs generalizing st with
  | nil =>
    cases h
    exact ⟨rfl, rfl, fun x => rfl⟩
  | cons r rest ih =>
    unfold decsOrPanic at h
    cases hf : findSlot st r with
    | none =>
      rw [hf] at h
      exact ih h
    | some s =>
      simp only [hf] at h
      by_cases hs : s.strong ≤ 1
      · rw [if_pos hs] at h
        cases h
      · rw [if_neg hs] at h
        obtain ⟨h1, h2, h3⟩ := ih h
        refine ⟨by rw [h1]; rfl, by rw [h2]; rfl, fun x => ?_⟩
        rw [h3 x]
        unfold slotLive
        rw [findSlot_decSlot]
        cases findSlot st x <;> rfl

theorem sweepOnceST_some_spec (refs : V → List Nat) {st0 st' : St V}
    {es : List (EntryR V)} (h : sweepOnceST refs (some st0) es = some st') :
    st'.map = st0.map ∧ (∀ x, slotLive st' x = slotLive st0 x) := by
  induction es generalizing st0 with
  | nil =>
    cases h
    exact ⟨rfl, fun x => rfl⟩
  | cons e es ih =>
    unfold sweepOnceST at h
    by_cases hi : instAlive st0 e.inst
    · rw [if_pos hi] at h
      exact ih h
    · rw [if_neg hi] at h
      cases hd : decsOrPanic st0 (refs e.key) with
      | none =>
        rw [hd] at h
        cases hnone : sweepOnceST refs none es
        · rw [hnone] at h; cases h
        · have : sweepOnceST refs (none : Option (St V)) es = none := by
            unfold sweepOnceST
            cases es <;> rfl
          rw [this] at hnone
          cases hnone
      | some st1 =>
        rw [hd] at h
        obtain ⟨h1, h2, h3⟩ := decsOrPanic_some_spec hd
        obtain ⟨h4, h5⟩ := ih h
        exact ⟨by rw [h4, h1], fun x => by rw [h5 x, h3 x]⟩

theorem cleanupST_some_spec (refs : V → List Nat) {st st' : St V}
    (h : cleanupST refs st = some st') :
    st'.map = keptEntries st ∧ (∀ x, slotLive st' x = slotLive st x) := by
  unfold cleanupST at h
  obtain ⟨h1, h2⟩ := sweepOnceST_some_spec refs h
  exact ⟨h1, h2⟩

/-- A single-threaded `cleanup` pass that completes without a re-entrant drop
leaves no stale entry either (no slot's liveness changed during the pass). -/
theorem cleanupST_some_staleFree (refs : V → List Nat) {st st' : St V}
    (h : cleanupST refs st = some st') : staleEntries st' = [] := by
  obtain ⟨h1, h2⟩ := cleanupST_some_spec refs h
  unfold staleEntries
  rw [List.filter_eq_nil_iff]
  intro e he
  rw [h1] at he
  have := (List.mem_filter.mp he).2
  rw [h2 e.tgt]
  simp only [this]
  simp

theorem cleanupST_idem (refs : V → List Nat) {st st' : St V}
    (h : cleanupST refs st = some st') : cleanupST refs st' = some st' := by
  have hsf := cleanupST_some_staleFree refs h
  have hkept : keptEntries st' = st'.map := by
    unfold keptEntries
    rw [List.filter_eq_self]
    intro e he
    unfold staleEntries at hsf
    rw [List.filter_eq_nil_iff] at hsf
    have := hsf e he
    simpa using this
  unfold cleanupST
  rw [hsf, hkept]
  rfl

/-! ## Monotonicity of the sweep -/

omit [DecidableEq V] in
theorem slotLive_congr_slots {st1 st2 : St V} (h : st1.slots = st2.slots) (x : Nat) :
    slotLive st1 x = slotLive st2 x := by
  unfold slotLive findSlot
  rw [h]

omit [DecidableEq V] in
theorem slotLive_removeSlot_mono {st : St V} {r x : Nat}
    (h : slotLive (removeSlot st r) x = true) : slotLive st x = true := by
  by_cases hx : x = r
  · subst hx
    unfold slotLive at h
    rw [findSlot_removeSlot_self] at h
    cases h
  · unfold slotLive at h ⊢
    rw [findSlot_removeSlot_other st hx] at h
    exact h

theorem slotLive_releaseRefs_mono (refs : V → List Nat) (auto : Bool) (st : St V)
    (todo : List Nat) {x : Nat}
    (h : slotLive (releaseRefs refs auto st todo) x = true) : slotLive st x = true := by
  induction st, todo using releaseRefs.induct refs auto with
  | case1 st => rwa [releaseRefs_nil] at h
  | case2 st r rest hf ih =>
    rw [releaseRefs_cons_absent refs auto st hf] at h
    exact ih h
  | case3 st r rest s hf hstr p st2 extra ih =>
    rw [releaseRefs_cons_dead refs auto st hf hstr] at h
    have h2 := ih h
    have h3 := slotLive_removeSlot_mono h2
    rwa [slotLive_congr_slots (dropEntryStep_slots refs auto st s.val) x] at h3
  | case4 st r rest s hf hstr ih =>
    rw [releaseRefs_cons_live refs auto st hf hstr] at h
    have h2 := ih h
    unfold slotLive at h2 ⊢
    rw [findSlot_decSlot] at h2
    cases hf2 : findSlot st x
    · rw [hf2] at h2; cases h2
    · rfl

theorem sweepRelease_live_mono (refs : V → List Nat) (st0 : St V)
    (es : List (EntryR V)) {x : Nat}
    (h : slotLive (sweepRelease refs st0 es) x = true) : slotLive st0 x = true := by
  induction es generalizing st0 with
  | nil => exact h
  | cons e es ih =>
    unfold sweepRelease at h
    simp only [List.foldl_cons] at h
    by_cases hi : instAlive st0 e.inst
    · rw [if_pos hi] at h
      exact ih st0 h
    · rw [if_neg hi] at h
      have := ih _ h
      exact slotLive_releaseRefs_mono refs false st0 (refs e.key) this

theorem cleanupTS_live_mono (refs : V → List Nat) (st : St V) {x : Nat}
    (h : slotLive (cleanupTS refs st) x = true) : slotLive st x = true := by
  induction st using cleanupTS.induct refs with
  | case1 st hempty =>
    rwa [cleanupTS_of_staleFree refs st hempty] at h
  | case2 st hempty ih =>
    rw [cleanupTS, if_neg hempty] at h
    have h1 := ih h
    have h2 := sweepRelease_live_mono refs _ _ h1
    rwa [slotLive_congr_slots (rfl : ({ st with map := keptEntries st } : St V).slots = st.slots) x] at h2

theorem cleanupTS_map_subset (refs : V → List Nat) (st : St V) :
    ∀ e ∈ (cleanupTS refs st).map, e ∈ st.map := by
  induction st using cleanupTS.induct refs with
  | case1 st hempty =>
    rw [cleanupTS_of_staleFree refs st hempty]
    exact fun e he => he
  | case2 st hempty ih =>
    rw [cleanupTS, if_neg hempty]
    intro e he
    have h1 := ih e he
    rw [sweepRelease_map] at h1
    exact (List.mem_filter.mp h1).1

/-- C10 core (raw form): the thread-safe sweep retains exactly the entries
whose weak reference still has a live target once the sweep is finished. -/
theorem cleanupTS_mem_iff (refs : V → List Nat) (st : St V) (e : EntryR V) :
    e ∈ (cleanupTS refs st).map ↔
      (e ∈ st.map ∧ slotLive (cleanupTS refs st) e.tgt = true) := by
  constructor
  · intro he
    refine ⟨cleanupTS_map_subset refs st e he, ?_⟩
    have hsf := cleanupTS_staleFree refs st
    unfold staleEntries at hsf
    rw [List.filter_eq_nil_iff] at hsf
    have := hsf e he
    simpa using this
  · intro ⟨hmem, hlive⟩
    induction st using cleanupTS.induct refs with
    | case1 st hempty =>
      rwa [cleanupTS_of_staleFree refs st hempty]
    | case2 st hempty ih =>
      rw [cleanupTS, if_neg hempty] at hlive ⊢
      apply ih
      · have h1 := cleanupTS_live_mono refs _ hlive
        have h2 := sweepRelease_live_mono refs _ _ h1
        have h3 : slotLive st e.tgt = true := by
          rwa [slotLive_congr_slots (rfl : ({ st with map := keptEntries st } : St V).slots = st.slots) e.tgt] at h2
        rw [sweepRelease_map]
        exact List.mem_filter.mpr ⟨hmem, h3⟩
      · exact hlive

/-! ## Handle-pinned slots survive the sweep -/

/-- Upper bound on the number of strong references to slot `h` that the
sweep could ever release: every occurrence of `h` inside a stored value or a
map key. A slot whose strong count exceeds this bound is held by a user
handle. -/
theorem sum_map_filter_le {α : Type} (l : List α) (f : α → Nat) (q : α → Bool) :
    ((l.filter q).map f).sum ≤ (l.map f).sum := by
  induction l with
  | nil => simp
  | cons a l ih =>
    rw [List.filter_cons]
    cases q a
    · rw [if_neg (by simp)]
      simp only [List.map_cons, List.sum_cons]
      omega
    · rw [if_pos rfl]
      simp only [List.map_cons, List.sum_cons]
      omega

theorem sum_map_filter_remove {α : Type} {l : List α} (f : α → Nat) {q : α → Bool}
    {s : α} (hs : s ∈ l) (hq : q s = false) :
    ((l.filter q).map f).sum + f s ≤ (l.map f).sum := by
  induction l with
  | nil => cases hs
  | cons a l ih =>
    rw [List.filter_cons]
    rcases List.mem_cons.mp hs with rfl | hmem
    · rw [hq]
      rw [if_neg (by simp)]
      simp only [List.map_cons, List.sum_cons]
      have := sum_map_filter_le l f q
      omega
    · cases hqa : q a
      · rw [if_neg (by simp)]
        simp only [List.map_cons, List.sum_cons]
        have := ih hmem
        omega
      · rw [if_pos rfl]
        simp only [List.map_cons, List.sum_cons]
        have := ih hmem
        omega

theorem sum_map_filter_not_partition {α : Type} (l : List α) (f : α → Nat) (q : α → Bool) :
    ((l.filter q).map f).sum + ((l.filter (fun a => !q a)).map f).sum = (l.map f).sum := by
  induction l with
  | nil => simp
  | cons a l ih =>
    rw [List.filter_cons, List.filter_cons]
    cases hqa : q a
    · rw [if_neg (by simp), if_pos (by simp)]
      simp only [List.map_cons, List.sum_cons]
      omega
    · rw [if_pos rfl, if_neg (by simp)]
      simp only [List.map_cons, List.sum_cons]
      omega

theorem sum_map_filter_or_le {α : Type} (l : List α) (f : α → Nat) (p q : α → Bool) :
    ((l.filter (fun a => p a || q a)).map f).sum
      ≤ ((l.filter p).map f).sum + ((l.filter q).map f).sum := by
  induction l with
  | nil => simp
  | cons a l ih =>
    by_cases hp : p a = true
    · have f1 : (a :: l).filter (fun x => p x || q x) = a :: l.filter (fun x => p x || q x) := by
        rw [List.filter_cons, if_pos (by simp [hp])]
      have f2 : (a :: l).filter p = a :: l.filter p := by
        rw [List.filter_cons, if_pos hp]
      by_cases hq : q a = true
      · have f3 : (a :: l).filter q = a :: l.filter q := by
          rw [List.filter_cons, if_pos hq]
        rw [f1, f2, f3]
        simp only [List.map_cons, List.sum_cons]
        omega
      · have f3 : (a :: l).filter q = l.filter q := by
          rw [List.filter_cons, if_neg hq]
        rw [f1, f2, f3]
        simp only [List.map_cons, List.sum_cons]
        omega
    · by_cases hq : q a = true
      · have f1 : (a :: l).filter (fun x => p x || q x) = a :: l.filter (fun x => p x || q x) := by
          rw [List.filter_cons, if_pos (by simp [hq])]
        have f2 : (a :: l).filter p = l.filter p := by
          rw [List.filter_cons, if_neg hp]
        have f3 : (a :: l).filter q = a :: l.filter q := by
          rw [List.filter_cons, if_pos hq]
        rw [f1, f2, f3]
        simp only [List.map_cons, List.sum_cons]
        omega
      · have f1 : (a :: l).filter (fun x => p x || q x) = l.filter (fun x => p x || q x) := by
          rw [List.filter_cons, if_neg (by simp [hp, hq])]
        have f2 : (a :: l).filter p = l.filter p := by
          rw [List.filter_cons, if_neg hp]
        have f3 : (a :: l).filter q = l.filter q := by
          rw [List.filter_cons, if_neg hq]
        rw [f1, f2, f3]
        omega

theorem sum_map_filter_split_le {α : Type} (l : List α) (f : α → Nat) (p q : α → Bool)
    (himp : ∀ a ∈ l, q a = false → p a = true) :
    (((l.filter q).filter p).map f).sum + ((l.filter (fun a => !q a)).map f).sum
      ≤ ((l.filter p).map f).sum := by
  induction l with
  | nil => simp
  | cons a l ih =>
    have ih' := ih (fun x hx hqx => himp x (List.mem_cons_of_mem a hx) hqx)
    by_cases hq : q a = true
    · have e1 : (a :: l).filter q = a :: l.filter q := by
        rw [List.filter_cons, if_pos hq]
      have e2 : (a :: l).filter (fun x => !q x) = l.filter (fun x => !q x) := by
        rw [List.filter_cons, if_neg (by simp [hq])]
      by_cases hp : p a = true
      · have e3 : (a :: l).filter p = a :: l.filter p := by
          rw [List.filter_cons, if_pos hp]
        have e4 : (a :: l.filter q).filter p = a :: (l.filter q).filter p := by
          rw [List.filter_cons, if_pos hp]
        rw [e1, e4, e2, e3]
        simp only [List.map_cons, List.sum_cons]
        omega
      · have e3 : (a :: l).filter p = l.filter p := by
          rw [List.filter_cons, if_neg hp]
        have e4 : (a :: l.filter q).filter p = (l.filter q).filter p := by
          rw [List.filter_cons, if_neg hp]
        rw [e1, e4, e2, e3]
        exact ih'
    · have hqf : q a = false := by
        cases hqa : q a
        · rfl
        · exact absurd hqa hq
      have hpa : p a = true := himp a (List.mem_cons_self a l) hqf
      have e1 : (a :: l).filter q = l.filter q := by
        rw [List.filter_cons, if_neg (by simp [hqf])]
      have e2 : (a :: l).filter (fun x => !q x) = a :: l.filter (fun x => !q x) := by
        rw [List.filter_cons, if_pos (by simp [hqf])]
      have e3 : (a :: l).filter p = a :: l.filter p := by
        rw [List.filter_cons, if_pos hpa]
      rw [e1, e2, e3]
      simp only [List.map_cons, List.sum_cons]
      omega

theorem filter_length_le_one_of_nodup {α β : Type} [DecidableEq β] {l : List α}
    {f : α → β} (hn : (l.map f).Nodup) (b : β) :
    (l.filter (fun a => decide (f a = b))).length ≤ 1 := by
  induction l with
  | nil => simp
  | cons a l ih =>
    simp only [List.map_cons, List.nodup_cons] at hn
    rw [List.filter_cons]
    by_cases hfa : f a = b
    · rw [if_pos (by simp [hfa])]
      have hnil : l.filter (fun x => decide (f x = b)) = [] := by
        rw [List.filter_eq_nil_iff]
        intro x hx
        simp only [decide_eq_true_eq]
        intro hxb
        exact hn.1 (by rw [hfa, ← hxb]; exact List.mem_map_of_mem f hx)
      rw [hnil]
      simp
    · rw [if_neg (by simp [hfa])]
      exact ih hn.2

omit [DecidableEq V] in
theorem strongOf_pos_live {st : St V} {h : Nat} (hp : 0 < strongOf st h) :
    slotLive st h = true := by
  unfold strongOf at hp
  unfold slotLive
  cases hf : findSlot st h
  · rw [hf] at hp; simp at hp
  · rfl

omit [DecidableEq V] in
theorem strongOf_congr_slots {st1 st2 : St V} (h : st1.slots = st2.slots) (x : Nat) :
    strongOf st1 x = strongOf st2 x := by
  unfold strongOf findSlot
  rw [h]

omit [DecidableEq V] in
theorem slotLive_decSlot (st : St V) (r x : Nat) :
    slotLive (decSlot st r) x = slotLive st x := by
  unfold slotLive
  rw [findSlot_decSlot]
  cases findSlot st x <;> rfl

omit [DecidableEq V] in
theorem slotVal_decSlot (st : St V) (r x : Nat) :
    slotVal (decSlot st r) x = slotVal st x := by
  unfold slotVal
  rw [findSlot_decSlot]
  cases findSlot st x with
  | none => rfl
  | some s =>
    show some (if s.sid = r then { s with strong := s.strong - 1 } else s).val = some s.val
    split <;> rfl

/-- The number of strong references to slot `h` held inside value allocations
the table still owns, each allocation counted once: a live slot's `elem` owns
its allocation (a map entry with the same `inst` shares that very
allocation), and the key of an entry whose allocation's slot is gone owns its
allocation alone. `strongOf st h` beyond this count can only be user
handles. -/
def refsOwned (refs : V → List Nat) (st : St V) (h : Nat) : Nat :=
  (st.slots.map (fun s => (refs s.val).count h)).sum
    + ((st.map.filter (fun e => !slotLive st e.inst)).map
      (fun e => (refs e.key).count h)).sum

/-- Allocation-ownership facts true of every reachable table: distinct
entries own distinct value allocations; when an entry's allocation still has
a live slot, that slot is the entry's own target and stores the key's value
(they are one shared allocation: slot ids are never reused). -/
structure OwnInv (st : St V) : Prop where
  instNodup : (st.map.map (fun e => e.inst)).Nodup
  instVal : ∀ e ∈ st.map, slotLive st e.inst = true → slotVal st e.inst = some e.key
  instTgt : ∀ e ∈ st.map, slotLive st e.inst = true → e.inst = e.tgt

theorem ownInv_decSlot (st : St V) (r : Nat) (hown : OwnInv st) :
    OwnInv (decSlot st r) := by
  refine ⟨hown.instNodup, ?_, ?_⟩
  · intro e he hl
    rw [slotLive_decSlot] at hl
    rw [slotVal_decSlot]
    exact hown.instVal e he hl
  · intro e he hl
    rw [slotLive_decSlot] at hl
    exact hown.instTgt e he hl

theorem ownInv_removeSlot (st : St V) (r : Nat) (hown : OwnInv st) :
    OwnInv (removeSlot st r) := by
  refine ⟨hown.instNodup, ?_, ?_⟩
  · intro e he hl
    have hxr : e.inst ≠ r := by
      intro hx
      rw [hx] at hl
      unfold slotLive at hl
      rw [findSlot_removeSlot_self] at hl
      cases hl
    have hfs := findSlot_removeSlot_other st hxr
    unfold slotLive at hl
    rw [hfs] at hl
    unfold slotVal
    rw [hfs]
    exact hown.instVal e he hl
  · intro e he hl
    have hxr : e.inst ≠ r := by
      intro hx
      rw [hx] at hl
      unfold slotLive at hl
      rw [findSlot_removeSlot_self] at hl
      cases hl
    have hfs := findSlot_removeSlot_other st hxr
    unfold slotLive at hl
    rw [hfs] at hl
    exact hown.instTgt e he hl

theorem ownInv_kept (st : St V) (hown : OwnInv st) :
    OwnInv ({ st with map := keptEntries st } : St V) := by
  have hsub : List.Sublist (keptEntries st) st.map := List.filter_sublist _
  refine ⟨?_, ?_, ?_⟩
  · exact List.Nodup.sublist (List.Sublist.map _ hsub) hown.instNodup
  · intro e he hl
    exact hown.instVal e (List.mem_of_mem_filter he) hl
  · intro e he hl
    exact hown.instTgt e (List.mem_of_mem_filter he) hl

/-- Dropping strong references in manual mode (`auto = false`) never changes
the stored value of a slot that stays live. -/
theorem releaseRefs_false_slotVal (refs : V → List Nat) (st : St V) (todo : List Nat) :
    ∀ x, slotLive (releaseRefs refs false st todo) x = true →
      slotLive st x = true ∧ slotVal (releaseRefs refs false st todo) x = slotVal st x := by
  induction st, todo using releaseRefs.induct refs false with
  | case1 st =>
    intro x hx
    rw [releaseRefs_nil] at hx ⊢
    exact ⟨hx, rfl⟩
  | case2 st r rest hf ih =>
    intro x hx
    rw [releaseRefs_cons_absent refs false st hf] at hx ⊢
    exact ih x hx
  | case3 st r rest s hf hstr p st2 extra ih =>
    intro x hx
    rw [releaseRefs_cons_dead refs false st hf hstr] at hx ⊢
    obtain ⟨h1, h2⟩ := ih x hx
    have hxr : x ≠ r := by
      intro hxr
      subst hxr
      unfold slotLive at h1
      rw [show findSlot st2 x = none from findSlot_removeSlot_self p.1 x] at h1
      cases h1
    have hfs : findSlot st2 x = findSlot st x := findSlot_removeSlot_other p.1 hxr
    refine ⟨?_, ?_⟩
    · unfold slotLive at h1 ⊢
      rwa [hfs] at h1
    · show slotVal (releaseRefs refs false st2 (p.2 ++ extra ++ rest)) x = slotVal st x
      rw [h2]
      unfold slotVal
      rw [hfs]
  | case4 st r rest s hf hstr ih =>
    intro x hx
    rw [releaseRefs_cons_live refs false st hf hstr] at hx ⊢
    obtain ⟨h1, h2⟩ := ih x hx
    rw [slotLive_decSlot] at h1
    rw [slotVal_decSlot] at h2
    exact ⟨h1, h2⟩

theorem releaseRefs_false_ownInv (refs : V → List Nat) (st : St V) (todo : List Nat)
    (hown : OwnInv st) : OwnInv (releaseRefs refs false st todo) := by
  have hmap := releaseRefs_false_map refs st todo
  refine ⟨?_, ?_, ?_⟩
  · rw [hmap]
    exact hown.instNodup
  · intro e he hl
    rw [hmap] at he
    obtain ⟨h1, h2⟩ := releaseRefs_false_slotVal refs st todo e.inst hl
    rw [h2]
    exact hown.instVal e he h1
  · intro e he hl
    rw [hmap] at he
    obtain ⟨h1, _⟩ := releaseRefs_false_slotVal refs st todo e.inst hl
    exact hown.instTgt e he h1

theorem refsOwned_decSlot (refs : V → List Nat) (st : St V) (r h : Nat) :
    refsOwned refs (decSlot st r) h = refsOwned refs st h := by
  have h1 : ((decSlot st r).slots.map (fun s => (refs s.val).count h)).sum
      = (st.slots.map (fun s => (refs s.val).count h)).sum := by
    unfold decSlot
    simp only [List.map_map]
    congr 1
    apply List.map_congr_left
    intro s _
    simp only [Function.comp]
    split <;> rfl
  have h2 : (decSlot st r).map.filter (fun e => !slotLive (decSlot st r) e.inst)
      = st.map.filter (fun e => !slotLive st e.inst) := by
    show st.map.filter _ = _
    apply List.filter_congr
    intro e _
    rw [slotLive_decSlot]
  unfold refsOwned
  rw [h1, h2]

/-- The key-owned reference count can grow across a slot removal only by the
(single) entry whose allocation that slot's `elem` shared. -/
theorem KO_removeSlot_le (refs : V → List Nat) (st : St V) (r h : Nat) :
    (((removeSlot st r).map.filter (fun e => !slotLive (removeSlot st r) e.inst)).map
        (fun e => (refs e.key).count h)).sum
      ≤ ((st.map.filter (fun e => !slotLive st e.inst)).map
          (fun e => (refs e.key).count h)).sum
        + ((st.map.filter (fun e => decide (e.inst = r))).map
          (fun e => (refs e.key).count h)).sum := by
  have hcong : (removeSlot st r).map.filter (fun e => !slotLive (removeSlot st r) e.inst)
      = st.map.filter (fun e => !slotLive st e.inst || decide (e.inst = r)) := by
    show st.map.filter _ = _
    apply List.filter_congr
    intro e _
    by_cases hx : e.inst = r
    · rw [hx]
      have h1 : slotLive (removeSlot st r) r = false := by
        unfold slotLive
        rw [findSlot_removeSlot_self]
        rfl
      rw [h1]
      simp
    · have h1 : slotLive (removeSlot st r) e.inst = slotLive st e.inst := by
        unfold slotLive
        rw [findSlot_removeSlot_other st hx]
      rw [h1]
      simp [hx]
  rw [hcong]
  exact sum_map_filter_or_le st.map _ _ _

/-- Under `OwnInv`, while slot `r` is live at most one entry shares its
allocation and that entry's key is the slot's value. -/
theorem instSum_le (refs : V → List Nat) {st : St V} (hown : OwnInv st)
    {r : Nat} {s : SlotR V} (hf : findSlot st r = some s) (h : Nat) :
    ((st.map.filter (fun e => decide (e.inst = r))).map
        (fun e => (refs e.key).count h)).sum
      ≤ (refs s.val).count h := by
  have hlen := filter_length_le_one_of_nodup hown.instNodup r
  simp only [] at hlen
  cases hl : st.map.filter (fun e => decide (e.inst = r)) with
  | nil => simp
  | cons a t =>
    rw [hl] at hlen
    simp only [List.length_cons] at hlen
    have ht : t = [] := List.length_eq_zero.mp (by omega)
    subst ht
    have ha : a ∈ st.map.filter (fun e => decide (e.inst = r)) := by
      rw [hl]; simp
    have ham := List.mem_of_mem_filter ha
    have hai : a.inst = r := by
      have := List.of_mem_filter ha
      simpa using this
    have hlive : slotLive st a.inst = true := by
      rw [hai]
      unfold slotLive
      rw [hf]
      rfl
    have hval := hown.instVal a ham hlive
    rw [hai] at hval
    have hsv : slotVal st r = some s.val := by
      unfold slotVal
      rw [hf]
      rfl
    rw [hsv] at hval
    injection hval with hv
    simp only [List.map_cons, List.map_nil, List.sum_cons, List.sum_nil]
    rw [← hv]
    omega

theorem instSum_zero (refs : V → List Nat) {st : St V} {r : Nat}
    (hna : st.map.any (fun e => decide (e.inst = r)) = false) (h : Nat) :
    ((st.map.filter (fun e => decide (e.inst = r))).map
      (fun e => (refs e.key).count h)).sum = 0 := by
  have hnil : st.map.filter (fun e => decide (e.inst = r)) = [] := by
    rw [List.filter_eq_nil_iff]
    intro x hx hdx
    have : st.map.any (fun e => decide (e.inst = r)) = true :=
      List.any_eq_true.mpr ⟨x, hx, hdx⟩
    rw [hna] at this
    cases this
  rw [hnil]
  rfl

theorem refsOwned_removeSlot_le (refs : V → List Nat) {st : St V} (hown : OwnInv st)
    {r : Nat} {s : SlotR V} (hf : findSlot st r = some s) (h : Nat) :
    refsOwned refs (removeSlot st r) h ≤ refsOwned refs st h := by
  have hsmem := findSlot_mem hf
  have hsid := findSlot_sid hf
  have hslot : ((removeSlot st r).slots.map (fun s => (refs s.val).count h)).sum
      + (refs s.val).count h
      ≤ (st.slots.map (fun s => (refs s.val).count h)).sum := by
    unfold removeSlot
    simp only []
    have hrm := sum_map_filter_remove (l := st.slots) (fun s => (refs s.val).count h)
      (q := fun s => decide (s.sid ≠ r)) hsmem (by simp [hsid])
    dsimp only at hrm
    exact hrm
  have hKO := KO_removeSlot_le refs st r h
  have hK := instSum_le refs hown hf h
  unfold refsOwned
  omega

theorem refsOwned_removeSlot_add_le (refs : V → List Nat) {st : St V}
    {r : Nat} {s : SlotR V} (hf : findSlot st r = some s)
    (hna : st.map.any (fun e => decide (e.inst = r)) = false) (h : Nat) :
    refsOwned refs (removeSlot st r) h + (refs s.val).count h ≤ refsOwned refs st h := by
  have hsmem := findSlot_mem hf
  have hsid := findSlot_sid hf
  have hslot : ((removeSlot st r).slots.map (fun s => (refs s.val).count h)).sum
      + (refs s.val).count h
      ≤ (st.slots.map (fun s => (refs s.val).count h)).sum := by
    unfold removeSlot
    simp only []
    have hrm := sum_map_filter_remove (l := st.slots) (fun s => (refs s.val).count h)
      (q := fun s => decide (s.sid ≠ r)) hsmem (by simp [hsid])
    dsimp only at hrm
    exact hrm
  have hKO := KO_removeSlot_le refs st r h
  have hK := instSum_zero refs hna h
  unfold refsOwned
  omega

/-- Manual-mode reference release: when slot `h` holds strictly more strong
references than the table-owned value allocations and the pending worklist
account for, it stays live, and the surplus persists. -/
theorem releaseRefs_owned (refs : V → List Nat) (st : St V) (todo : List Nat)
    (h slack : Nat) (hown : OwnInv st)
    (hyp : refsOwned refs st h + todo.count h + slack < strongOf st h) :
    slotLive (releaseRefs refs false st todo) h = true ∧
      refsOwned refs (releaseRefs refs false st todo) h + slack <
        strongOf (releaseRefs refs false st todo) h := by
  induction st, todo using releaseRefs.induct refs false with
  | case1 st =>
    rw [releaseRefs_nil]
    exact ⟨strongOf_pos_live (by omega), by omega⟩
  | case2 st r rest hf ih =>
    rw [releaseRefs_cons_absent refs false st hf]
    apply ih hown
    have hcount : rest.count h ≤ (r :: rest).count h := by
      rw [List.count_cons]; split <;> omega
    omega
  | case3 st r rest s hf hstr p st2 extra ih =>
    rw [releaseRefs_cons_dead refs false st hf hstr]
    have hrh : r ≠ h := by
      intro hrh
      subst hrh
      have hsr : strongOf st r = s.strong := by unfold strongOf; rw [hf]
      have : 1 ≤ (r :: rest).count r := by simp [List.count_cons]
      omega
    have hst2 : st2 = removeSlot st r := rfl
    have hstrong2 : strongOf (removeSlot st r) h = strongOf st h := by
      unfold strongOf
      rw [findSlot_removeSlot_other st (fun hh => hrh hh.symm)]
    have hown2 : OwnInv st2 := by
      rw [hst2]
      exact ownInv_removeSlot st r hown
    have hcnt : (p.2 ++ extra ++ rest).count h = extra.count h + rest.count h := by
      rw [show p.2 = ([] : List Nat) from rfl]
      simp [List.count_append]
    have hcount : rest.count h ≤ (r :: rest).count h := by
      rw [List.count_cons]; split <;> omega
    apply ih hown2
    rw [hcnt, hst2, hstrong2]
    by_cases hia : instAlive st2 r = true
    · have hec : extra.count h = 0 := by
        have hx : extra = ([] : List Nat) := by
          show (if instAlive st2 r then ([] : List Nat) else refs s.val) = []
          rw [if_pos hia]
        rw [hx]
        rfl
      have hle := refsOwned_removeSlot_le refs hown hf h
      omega
    · have hec : extra.count h = (refs s.val).count h := by
        have hx : extra = refs s.val := by
          show (if instAlive st2 r then ([] : List Nat) else refs s.val) = _
          rw [if_neg hia]
        rw [hx]
      have hna : st.map.any (fun e => decide (e.inst = r)) = false := by
        cases hany : st2.map.any (fun e => decide (e.inst = r)) with
        | false => exact hany
        | true =>
          exfalso
          apply hia
          show (slotLive st2 r || st2.map.any (fun e => decide (e.inst = r))) = true
          rw [hany]
          simp
      have hle := refsOwned_removeSlot_add_le refs hf hna h
      omega
  | case4 st r rest s hf hstr ih =>
    rw [releaseRefs_cons_live refs false st hf hstr]
    apply ih (ownInv_decSlot st r hown)
    rw [refsOwned_decSlot, strongOf_decSlot]
    by_cases hrh : h = r
    · subst hrh
      rw [if_pos rfl]
      have : (h :: rest).count h = rest.count h + 1 := by simp [List.count_cons]
      omega
    · rw [if_neg hrh]
      have hcount : rest.count h ≤ (r :: rest).count h := by
        rw [List.count_cons]; split <;> omega
      omega

theorem sweepRelease_owned (refs : V → List Nat) (st0 : St V)
    (es : List (EntryR V)) (h : Nat) (hown : OwnInv st0)
    (hyp : refsOwned refs st0 h + (es.map (fun e => (refs e.key).count h)).sum
      < strongOf st0 h) :
    slotLive (sweepRelease refs st0 es) h = true ∧
      refsOwned refs (sweepRelease refs st0 es) h < strongOf (sweepRelease refs st0 es) h ∧
      OwnInv (sweepRelease refs st0 es) := by
  induction es generalizing st0 with
  | nil =>
    simp only [List.map_nil, List.sum_nil, Nat.add_zero] at hyp
    exact ⟨strongOf_pos_live (show 0 < strongOf st0 h by omega), hyp, hown⟩
  | cons e es ih =>
    unfold sweepRelease
    simp only [List.foldl_cons]
    simp only [List.map_cons, List.sum_cons] at hyp
    by_cases hi : instAlive st0 e.inst
    · rw [if_pos hi]
      exact ih st0 hown (by omega)
    · rw [if_neg hi]
      have hrel := releaseRefs_owned refs st0 (refs e.key) h
        ((es.map (fun e' => (refs e'.key).count h)).sum) hown (by omega)
      exact ih _ (releaseRefs_false_ownInv refs st0 (refs e.key) hown) (by omega)

/-- A slot whose strong count exceeds all table-owned references to it (it is
held by a user handle) stays live through the whole thread-safe sweep, with
the surplus intact. -/
theorem cleanupTS_owned (refs : V → List Nat) (st : St V) (h : Nat)
    (hown : OwnInv st) (hyp : refsOwned refs st h < strongOf st h) :
    slotLive (cleanupTS refs st) h = true ∧
      refsOwned refs (cleanupTS refs st) h < strongOf (cleanupTS refs st) h := by
  induction st using cleanupTS.induct refs with
  | case1 st hempty =>
    rw [cleanupTS_of_staleFree refs st hempty]
    exact ⟨strongOf_pos_live (by omega), hyp⟩
  | case2 st hempty ih =>
    rw [cleanupTS, if_neg hempty]
    have hownK : OwnInv ({ st with map := keptEntries st } : St V) := ownInv_kept st hown
    have himp : ∀ x ∈ st.map, slotLive st x.tgt = false → (!slotLive st x.inst) = true := by
      intro x hx hdead
      cases hli : slotLive st x.inst
      · rfl
      · have hit := hown.instTgt x hx hli
        rw [hit, hdead] at hli
        cases hli
    have hko := sum_map_filter_split_le st.map (fun e => (refs e.key).count h)
      (fun e => !slotLive st e.inst) (fun e => slotLive st e.tgt) himp
    simp only [] at hko
    have hro : refsOwned refs st h
        = (st.slots.map (fun s => (refs s.val).count h)).sum
          + ((st.map.filter (fun e => !slotLive st e.inst)).map
            (fun e => (refs e.key).count h)).sum := rfl
    rw [hro] at hyp
    have hsw := sweepRelease_owned refs ({ st with map := keptEntries st } : St V)
      (staleEntries st) h hownK (by
        show (st.slots.map (fun s => (refs s.val).count h)).sum
            + (((st.map.filter (fun e => slotLive st e.tgt)).filter
                (fun e => !slotLive st e.inst)).map (fun e => (refs e.key).count h)).sum
            + ((st.map.filter (fun a => !slotLive st a.tgt)).map
                (fun e => (refs e.key).count h)).sum
          < strongOf st h
        omega)
    exact ih hsw.2.2 hsw.2.1

theorem find?_key_of_uniq {m : List (EntryR V)} {e : EntryR V}
    (he : e ∈ m) (huq : ∀ x ∈ m, x.key = e.key → x = e) :
    m.find? (fun e' => decide (e'.key = e.key)) = some e := by
  cases hf : m.find? (fun e' => decide (e'.key = e.key)) with
  | none =>
    rw [List.find?_eq_none] at hf
    have := hf e he
    simp at this
  | some x =>
    have hx1 : x ∈ m := List.mem_of_find?_eq_some hf
    have hx2 : x.key = e.key := by
      have := List.find?_some hf
      simpa using this
    rw [huq x hx1 hx2]

/-- C10: `cleanup()` never removes an entry whose slot is still referenced by
a live handle. `refsOwned` counts, once per table-owned value allocation, the
strong references to slot `hnd` held inside stored values, so
`refsOwned < strongOf` says at least one strong reference is a user handle;
`OwnInv` states the allocation-ownership facts true of every reachable
table. Then the thread-safe sweep retains exactly the entries whose weak
reference still upgrades, slot `hnd` and its entry survive it, and a
subsequent `hashcons` of an equal value still returns `hnd`; and whenever
the single-threaded sweep completes, it retains exactly the entries live at
its single pass, keeps slot `hnd` and its entry, and a subsequent `hashcons`
of an equal value still returns `hnd`. -/
theorem c10_cleanup_preserves_live (refs : V → List Nat) (st : St V)
    (hnd : Nat) (e : EntryR V)
    (hown : OwnInv st)
    (hpin : refsOwned refs st hnd < strongOf st hnd)
    (hmem : e ∈ st.map) (htgt : e.tgt = hnd)
    (huniq : ∀ x ∈ st.map, x.key = e.key → x = e) :
    ((∀ e', e' ∈ (cleanupTS refs st).map ↔
        (e' ∈ st.map ∧ slotLive (cleanupTS refs st) e'.tgt = true)) ∧
      slotLive (cleanupTS refs st) hnd = true ∧
      e ∈ (cleanupTS refs st).map ∧
      (hashconsV refs false e.key (cleanupTS refs st)).1 = hnd) ∧
    (∀ st', cleanupST refs st = some st' →
      (∀ e', e' ∈ st'.map ↔ (e' ∈ st.map ∧ slotLive st e'.tgt = true)) ∧
      slotLive st' hnd = true ∧
      e ∈ st'.map ∧
      (hashconsV refs false e.key st').1 = hnd) := by
  have hcl := cleanupTS_owned refs st hnd hown hpin
  have hlivecl : slotLive (cleanupTS refs st) hnd = true := hcl.1
  have hecl : e ∈ (cleanupTS refs st).map :=
    (cleanupTS_mem_iff refs st e).mpr ⟨hmem, by rw [htgt]; exact hlivecl⟩
  have hfindTS : (cleanupTS refs st).map.find? (fun e' => decide (e'.key = e.key)) = some e :=
    find?_key_of_uniq hecl (fun x hx hk => huniq x (cleanupTS_map_subset refs st x hx) hk)
  have hhTS := hashconsV_hit refs false e.key (cleanupTS refs st) hfindTS
    (by rw [htgt]; exact hlivecl)
  refine ⟨⟨fun e' => cleanupTS_mem_iff refs st e', hlivecl, hecl, by rw [hhTS, htgt]⟩, ?_⟩
  intro st' hst'
  obtain ⟨hmap', hlive'⟩ := cleanupST_some_spec refs hst'
  have hlive0 : slotLive st hnd = true := strongOf_pos_live (by omega)
  have hkept : ∀ e', e' ∈ st'.map ↔ (e' ∈ st.map ∧ slotLive st e'.tgt = true) := by
    intro e'
    rw [hmap']
    unfold keptEntries
    exact List.mem_filter
  have hemem' : e ∈ st'.map := (hkept e).mpr ⟨hmem, by rw [htgt]; exact hlive0⟩
  have hfindST : st'.map.find? (fun x => decide (x.key = e.key)) = some e :=
    find?_key_of_uniq hemem' (fun x hx hk => huniq x ((hkept x).mp hx).1 hk)
  have hlives : slotLive st' e.tgt = true := by
    rw [htgt, hlive' hnd]
    exact hlive0
  have hhST := hashconsV_hit refs false e.key st' hfindST hlives
  exact ⟨hkept, by rw [hlive' hnd]; exact hlive0, hemem', by rw [hhST, htgt]⟩

/-! ## The auto-cleanup machine and its invariant -/

theorem find?_map_rel {α β : Type} (f : α → β) (p : β → Bool) (q : α → Bool)
    (l : List α) (h : ∀ x, p (f x) = q x) :
    (l.map f).find? p = (l.find? q).map f := by
  induction l with
  | nil => rfl
  | cons a l ih =>
    simp only [List.map_cons, List.find?_cons]
    rw [h a]
    cases q a
    · exact ih
    · rfl

/-- The part of the slot list the strong counts do not touch. -/
def slotsShape (st : St V) : List (Nat × V) := st.slots.map (fun s => (s.sid, s.val))

omit [DecidableEq V] in
theorem findSlot_shape (st : St V) (i : Nat) :
    (slotsShape st).find? (fun z => decide (z.1 = i)) =
      (findSlot st i).map (fun s => (s.sid, s.val)) := by
  unfold findSlot slotsShape
  exact find?_map_rel _ _ _ _ (fun x => rfl)

omit [DecidableEq V] in
theorem slotLive_shape {st1 st2 : St V} (h : slotsShape st1 = slotsShape st2) (i : Nat) :
    slotLive st1 i = slotLive st2 i := by
  unfold slotLive
  have h1 := findSlot_shape st1 i
  have h2 := findSlot_shape st2 i
  rw [h] at h1
  rw [h2] at h1
  cases hf1 : findSlot st1 i <;> cases hf2 : findSlot st2 i <;>
    rw [hf1, hf2] at h1 <;> simp at h1 <;> rfl

omit [DecidableEq V] in
theorem slotVal_shape {st1 st2 : St V} (h : slotsShape st1 = slotsShape st2) (i : Nat) :
    slotVal st1 i = slotVal st2 i := by
  unfold slotVal
  have h1 := findSlot_shape st1 i
  have h2 := findSlot_shape st2 i
  rw [h] at h1
  rw [h2] at h1
  cases hf1 : findSlot st1 i with
  | none =>
    rw [hf1] at h1
    cases hf2 : findSlot st2 i with
    | none => rfl
    | some s2 => rw [hf2] at h1; simp at h1
  | some s1 =>
    rw [hf1] at h1
    cases hf2 : findSlot st2 i with
    | none => rw [hf2] at h1; simp at h1
    | some s2 =>
      rw [hf2] at h1
      simp only [Option.map_some'] at h1
      injection h1 with h1'
      have hval : s2.val = s1.val := congrArg Prod.snd h1'
      simp only [Option.map_some']
      rw [hval]

omit [DecidableEq V] in
theorem sids_eq_shape (st : St V) :
    st.slots.map (fun s => s.sid) = (slotsShape st).map Prod.fst := by
  unfold slotsShape
  rw [List.map_map]
  rfl

omit [DecidableEq V] in
theorem refsSum_eq_shape (refs : V → List Nat) (st : St V) (i : Nat) :
    (st.slots.map (fun s => (refs s.val).count i)).sum =
      ((slotsShape st).map (fun z => (refs z.2).count i)).sum := by
  unfold slotsShape
  rw [List.map_map]
  rfl

omit [DecidableEq V] in
theorem mem_of_shape {st1 st2 : St V} (h : slotsShape st1 = slotsShape st2)
    {s : SlotR V} (hs : s ∈ st1.slots) :
    ∃ s2 ∈ st2.slots, s2.sid = s.sid ∧ s2.val = s.val := by
  have : (s.sid, s.val) ∈ slotsShape st2 := by
    rw [← h]
    exact List.mem_map_of_mem _ hs
  rcases List.mem_map.mp this with ⟨s2, hs2, heq⟩
  exact ⟨s2, hs2, congrArg Prod.fst heq, congrArg Prod.snd heq⟩

omit [DecidableEq V] in
theorem slotsShape_map (st : St V) (g : SlotR V → SlotR V)
    (hg : ∀ s, (g s).sid = s.sid ∧ (g s).val = s.val) :
    slotsShape ({ st with slots := st.slots.map g }) = slotsShape st := by
  unfold slotsShape
  simp only [List.map_map]
  apply List.map_congr_left
  intro s _
  simp only [Function.comp]
  rw [(hg s).1, (hg s).2]

omit [DecidableEq V] in
theorem slotsShape_incSlot (st : St V) (r : Nat) :
    slotsShape (incSlot st r) = slotsShape st := by
  apply slotsShape_map
  intro s
  constructor <;> (split <;> rfl)

omit [DecidableEq V] in
theorem slotsShape_decSlot (st : St V) (r : Nat) :
    slotsShape (decSlot st r) = slotsShape st := by
  apply slotsShape_map
  intro s
  constructor <;> (split <;> rfl)

omit [DecidableEq V] in
theorem slotsShape_acquire (st : St V) (rs : List Nat) :
    slotsShape (acquire st rs) = slotsShape st := by
  unfold slotsShape
  rw [acquire_slots, List.map_map]
  apply List.map_congr_left
  intro s _
  rfl

omit [DecidableEq V] in
theorem slotsShape_subCounts (st : St V) (rs : List Nat) :
    slotsShape (subCounts st rs) = slotsShape st := by
  have h := subCounts_slots st rs
  unfold slotsShape
  rw [h, List.map_map]
  apply List.map_congr_left
  intro s _
  rfl

/-- Invariant of the states the auto-cleanup variant can reach; `hs` is the
multiset (as a list) of live user handles, each entry one strong reference.
Strong counts split exactly into user handles plus references held inside
stored values; every entry is live, key-shares its value with its target
slot, and values reference only older slots. -/
structure InvA (refs : V → List Nat) (st : St V) (hs : List Nat) : Prop where
  strongPos : StrongPos st
  slotNodup : (st.slots.map (fun s => s.sid)).Nodup
  keyNodup : (st.map.map (fun e => e.key)).Nodup
  tgtEq : ∀ e ∈ st.map, e.inst = e.tgt
  maplive : ∀ e ∈ st.map, slotLive st e.tgt = true
  keymatch : ∀ e ∈ st.map, slotVal st e.tgt = some e.key
  entryOf : ∀ s ∈ st.slots, ∃ e ∈ st.map, e.tgt = s.sid
  sidLt : ∀ s ∈ st.slots, s.sid < st.next
  acy : ∀ s ∈ st.slots, ∀ r ∈ refs s.val, r < s.sid
  acc : ∀ i, strongOf st i =
    hs.count i + (st.slots.map (fun s => (refs s.val).count i)).sum

omit [DecidableEq V] in
theorem findSlot_of_nodup {st : St V} (hn : (st.slots.map (fun s => s.sid)).Nodup)
    {s : SlotR V} (hs : s ∈ st.slots) : findSlot st s.sid = some s := by
  cases hf : findSlot st s.sid with
  | none =>
    unfold findSlot at hf
    rw [List.find?_eq_none] at hf
    have := hf s hs
    simp at this
  | some x =>
    have hx1 : x ∈ st.slots := findSlot_mem hf
    have hx2 : x.sid = s.sid := findSlot_sid hf
    have := List.inj_on_of_nodup_map hn hx1 hs hx2
    rw [this]

theorem InvA.handleLive {refs : V → List Nat} {st : St V} {hs : List Nat}
    (inv : InvA refs st hs) {h : Nat} (hh : h ∈ hs) : slotLive st h = true := by
  have hc : 0 < hs.count h := List.count_pos_iff_mem.mpr hh
  have := inv.acc h
  exact strongOf_pos_live (by omega)

theorem InvA.handleLt {refs : V → List Nat} {st : St V} {hs : List Nat}
    (inv : InvA refs st hs) {h : Nat} (hh : h ∈ hs) : h < st.next := by
  have hl := inv.handleLive hh
  unfold slotLive at hl
  cases hf : findSlot st h with
  | none => rw [hf] at hl; cases hl
  | some s =>
    have := inv.sidLt s (findSlot_mem hf)
    rw [findSlot_sid hf] at this
    exact this

/-- Transfer all shape-determined invariant fields across a state change that
keeps the map, the counter and the slot shape. -/
theorem invA_transfer (refs : V → List Nat) {st st' : St V} {hs hs' : List Nat}
    (inv : InvA refs st hs)
    (hshape : slotsShape st' = slotsShape st)
    (hmap : st'.map = st.map) (hnext : st'.next = st.next)
    (hpos : StrongPos st')
    (hacc : ∀ i, strongOf st' i =
      hs'.count i + (st'.slots.map (fun s => (refs s.val).count i)).sum) :
    InvA refs st' hs' := by
  refine ⟨hpos, ?_, ?_, ?_, ?_, ?_, ?_, ?_, ?_, hacc⟩
  · rw [sids_eq_shape, hshape, ← sids_eq_shape]
    exact inv.slotNodup
  · rw [hmap]; exact inv.keyNodup
  · rw [hmap]; exact inv.tgtEq
  · intro e he
    rw [hmap] at he
    rw [slotLive_shape hshape]
    exact inv.maplive e he
  · intro e he
    rw [hmap] at he
    rw [slotVal_shape hshape]
    exact inv.keymatch e he
  · intro s hsm
    rcases mem_of_shape hshape hsm with ⟨s2, hs2, hsid, _⟩
    rcases inv.entryOf s2 hs2 with ⟨e, he, htgt⟩
    exact ⟨e, by rw [hmap]; exact he, by rw [htgt, hsid]⟩
  · intro s hsm
    rcases mem_of_shape hshape hsm with ⟨s2, hs2, hsid, _⟩
    rw [hnext, ← hsid]
    exact inv.sidLt s2 hs2
  · intro s hsm
    rcases mem_of_shape hshape hsm with ⟨s2, hs2, hsid, hval⟩
    rw [← hsid, ← hval]
    exact inv.acy s2 hs2

omit [DecidableEq V] in
theorem findSlot_cons (x : SlotR V) (slots : List (SlotR V)) (mp : List (EntryR V))
    (nx i : Nat) :
    findSlot (⟨x :: slots, mp, nx⟩ : St V) i =
      if x.sid = i then some x else findSlot (⟨slots, mp, nx⟩ : St V) i := by
  unfold findSlot
  rw [List.find?_cons]
  by_cases hx : x.sid = i
  · rw [if_pos hx]
    simp [hx]
  · rw [if_neg hx]
    simp [hx]

theorem exists_max_mem {l : List Nat} (h : l ≠ []) : ∃ m ∈ l, ∀ x ∈ l, x ≤ m := by
  induction l with
  | nil => exact absurd rfl h
  | cons a l ih =>
    cases hl : l with
    | nil =>
      refine ⟨a, by simp, ?_⟩
      intro x hx
      rcases List.mem_cons.mp hx with rfl | hx2
      · omega
      · cases hx2
    | cons b l2 =>
      rw [← hl]
      rcases ih (by rw [hl]; simp) with ⟨m, hm, hmax⟩
      by_cases ham : a ≤ m
      · refine ⟨m, List.mem_cons_of_mem a hm, ?_⟩
        intro x hx
        rcases List.mem_cons.mp hx with rfl | hx2
        · exact ham
        · exact hmax x hx2
      · refine ⟨a, by simp, ?_⟩
        intro x hx
        rcases List.mem_cons.mp hx with rfl | hx2
        · omega
        · have := hmax x hx2
          omega

/-- With no user handles left, an auto-cleanup reachable state is empty:
every stored value references only strictly older slots, so the newest live
slot would have strong count 0. -/
theorem invA_empty_handles (refs : V → List Nat) {st : St V}
    (inv : InvA refs st []) : st.slots = [] ∧ st.map = [] := by
  have hslots : st.slots = [] := by
    by_contra hne
    have hsids : st.slots.map (fun s => s.sid) ≠ [] := by
      intro hx
      exact hne (List.map_eq_nil_iff.mp hx)
    rcases exists_max_mem hsids with ⟨m, hm, hmax⟩
    rcases List.mem_map.mp hm with ⟨s0, hs0, rfl⟩
    have hfind := findSlot_of_nodup inv.slotNodup hs0
    have hstr : strongOf st s0.sid = s0.strong := by
      unfold strongOf; rw [hfind]
    have hpos : 1 ≤ s0.strong := inv.strongPos s0 hs0
    have hsum : (st.slots.map (fun s => (refs s.val).count s0.sid)).sum = 0 := by
      apply List.sum_eq_zero
      intro x hx
      rcases List.mem_map.mp hx with ⟨s, hsm, rfl⟩
      rw [List.count_eq_zero]
      intro hmem
      have h1 := inv.acy s hsm s0.sid hmem
      have h2 := hmax s.sid (List.mem_map_of_mem _ hsm)
      omega
    have := inv.acc s0.sid
    rw [hstr, hsum] at this
    simp at this
    omega
  refine ⟨hslots, ?_⟩
  cases hmp : st.map with
  | nil => rfl
  | cons e es =>
    have hlive := inv.maplive e (by rw [hmp]; simp)
    unfold slotLive findSlot at hlive
    rw [hslots] at hlive
    cases hlive

omit [DecidableEq V] in
theorem findSlot_congr_slots {st1 st2 : St V} (h : st1.slots = st2.slots) (i : Nat) :
    findSlot st1 i = findSlot st2 i := by
  unfold findSlot
  rw [h]

omit [DecidableEq V] in
theorem refsSum_congr (refs : V → List Nat) {st1 st2 : St V}
    (h : slotsShape st1 = slotsShape st2) (i : Nat) :
    (st1.slots.map (fun s => (refs s.val).count i)).sum =
      (st2.slots.map (fun s => (refs s.val).count i)).sum := by
  rw [refsSum_eq_shape, refsSum_eq_shape, h]

omit [DecidableEq V] in
theorem strongOf_incSlot_live {st : St V} {t : Nat} (ht : slotLive st t = true) (i : Nat) :
    strongOf (incSlot st t) i = strongOf st i + (if i = t then 1 else 0) := by
  unfold strongOf
  rw [findSlot_incSlot]
  cases hf : findSlot st i with
  | none =>
    simp only [Option.map_none']
    by_cases hit : i = t
    · subst hit
      unfold slotLive at ht
      rw [hf] at ht
      cases ht
    · rw [if_neg hit]
  | some s =>
    have hsid := findSlot_sid hf
    simp only [Option.map_some']
    by_cases hit : i = t
    · subst hit
      rw [if_pos hsid, if_pos rfl]
    · rw [if_neg (by rw [hsid]; exact hit), if_neg hit]
      omega

omit [DecidableEq V] in
theorem strongPos_incSlot {st : St V} (hpos : StrongPos st) (t : Nat) :
    StrongPos (incSlot st t) := by
  intro s' hs'
  rcases List.mem_map.mp hs' with ⟨s, hs, rfl⟩
  have := hpos s hs
  split
  · dsimp
    omega
  · omega

theorem invA_clone (refs : V → List Nat) {st : St V} {hs : List Nat}
    (inv : InvA refs st hs) {h : Nat} (hh : h ∈ hs) :
    InvA refs (incSlot st h) (h :: hs) := by
  apply invA_transfer refs inv (slotsShape_incSlot st h) rfl rfl
  · exact strongPos_incSlot inv.strongPos h
  · intro i
    rw [strongOf_incSlot_live (inv.handleLive hh) i]
    rw [refsSum_congr refs (slotsShape_incSlot st h) i]
    rw [inv.acc i]
    simp only [List.count_cons, beq_iff_eq]
    rcases eq_or_ne i h with hih | hih
    · subst hih
      simp only [if_pos rfl]
      omega
    · rw [if_neg hih, if_neg (fun hx => hih hx.symm)]
      omega

omit [DecidableEq V] in
theorem strongOf_hit_path {st : St V} {t : Nat} (ht : slotLive st t = true)
    (rs : List Nat) (i : Nat) :
    strongOf (subCounts (incSlot (acquire st rs) t) rs) i =
      strongOf st i + (if i = t then 1 else 0) := by
  have ht' : slotLive (acquire st rs) t = true := by
    rw [slotLive_acquire]; exact ht
  unfold strongOf
  rw [findSlot_subCounts, findSlot_incSlot, findSlot_acquire]
  cases hf : findSlot st i with
  | none =>
    simp only [Option.map_none']
    by_cases hit : i = t
    · subst hit
      unfold slotLive at ht
      rw [hf] at ht
      cases ht
    · rw [if_neg hit]
  | some s =>
    have hsid := findSlot_sid hf
    simp only [Option.map_some']
    by_cases hit : i = t
    · subst hit
      rw [if_pos hsid]
      dsimp
      rw [if_pos rfl]
      omega
    · rw [if_neg (by rw [hsid]; exact hit), if_neg hit]
      dsimp
      omega

omit [DecidableEq V] in
theorem sids_acquire (st : St V) (rs : List Nat) :
    (acquire st rs).slots.map (fun s => s.sid) = st.slots.map (fun s => s.sid) := by
  rw [sids_eq_shape, slotsShape_acquire, ← sids_eq_shape]

omit [DecidableEq V] in
theorem findSlot_next_none {st : St V} (hlt : ∀ s ∈ st.slots, s.sid < st.next) :
    findSlot st st.next = none := by
  unfold findSlot
  rw [List.find?_eq_none]
  intro s hs
  have := hlt s hs
  simp only [decide_eq_true_eq]
  omega

omit [DecidableEq V] in
theorem slotVal_cons_other (x : SlotR V) (slots : List (SlotR V)) (mp : List (EntryR V))
    (nx i : Nat) (h : x.sid ≠ i) :
    slotVal (⟨x :: slots, mp, nx⟩ : St V) i = slotVal (⟨slots, mp, nx⟩ : St V) i := by
  unfold slotVal
  rw [findSlot_cons, if_neg h]

omit [DecidableEq V] in
theorem strongOf_mk_cons (x : SlotR V) (slots : List (SlotR V)) (mp : List (EntryR V))
    (nx i : Nat) :
    strongOf (⟨x :: slots, mp, nx⟩ : St V) i =
      if x.sid = i then x.strong else strongOf (⟨slots, mp, nx⟩ : St V) i := by
  unfold strongOf
  rw [findSlot_cons]
  by_cases hx : x.sid = i
  · rw [if_pos hx, if_pos hx]
  · rw [if_neg hx, if_neg hx]

theorem invA_vacant (refs : V → List Nat) {st : St V} {hs : List Nat}
    (inv : InvA refs st hs) (v : V)
    (hrv : ∀ r ∈ refs v, r ∈ hs)
    (hfind : st.map.find? (fun e' => decide (e'.key = v)) = none) :
    InvA refs (⟨⟨st.next, v, 1⟩ :: (acquire st (refs v)).slots,
               st.map ++ [⟨v, st.next, st.next⟩], st.next + 1⟩ : St V) (st.next :: hs) := by
  have hnextfree : ∀ h ∈ hs, h ≠ st.next := by
    intro h hh
    have := inv.handleLt hh
    omega
  have hrvlt : ∀ r ∈ refs v, r < st.next := fun r hr => inv.handleLt (hrv r hr)
  refine ⟨?_, ?_, ?_, ?_, ?_, ?_, ?_, ?_, ?_, ?_⟩
  · intro s' hs'
    rcases List.mem_cons.mp hs' with rfl | hmem
    · simp
    · rw [acquire_slots] at hmem
      rcases List.mem_map.mp hmem with ⟨s, hsm, rfl⟩
      have := inv.strongPos s hsm
      dsimp
      omega
  · simp only [List.map_cons]
    rw [List.nodup_cons]
    constructor
    · intro hmem
      rw [sids_acquire] at hmem
      rcases List.mem_map.mp hmem with ⟨s, hsm, hsid⟩
      have := inv.sidLt s hsm
      omega
    · rw [sids_acquire]
      exact inv.slotNodup
  · simp only [List.map_append]
    rw [List.nodup_append]
    refine ⟨inv.keyNodup, by simp, ?_⟩
    intro k hk
    simp only [List.map_cons, List.map_nil, List.mem_cons, List.not_mem_nil, or_false]
    intro hkv
    subst hkv
    exact not_mem_keysOf_of_find?_none hfind hk
  · intro e he
    rcases List.mem_append.mp he with hm | hm
    · exact inv.tgtEq e hm
    · have : e = ⟨v, st.next, st.next⟩ := by simpa using hm
      subst this
      rfl
  · intro e he
    rcases List.mem_append.mp he with hm | hm
    · exact slotLive_cons_acquire st (refs v) st.next 1 e.tgt v _ _ (inv.maplive e hm)
    · have : e = ⟨v, st.next, st.next⟩ := by simpa using hm
      subst this
      exact slotLive_cons_self _ _ _ _ _ _
  · intro e he
    rcases List.mem_append.mp he with hm | hm
    · have hlt : e.tgt < st.next := by
        have hl := inv.maplive e hm
        unfold slotLive at hl
        cases hf : findSlot st e.tgt with
        | none => rw [hf] at hl; cases hl
        | some s =>
          have := inv.sidLt s (findSlot_mem hf)
          rw [findSlot_sid hf] at this
          exact this
      have h1 : slotVal (⟨(⟨st.next, v, 1⟩ : SlotR V) :: (acquire st (refs v)).slots,
          st.map ++ [⟨v, st.next, st.next⟩], st.next + 1⟩ : St V) e.tgt =
          slotVal (⟨(acquire st (refs v)).slots,
          st.map ++ [⟨v, st.next, st.next⟩], st.next + 1⟩ : St V) e.tgt := by
        apply slotVal_cons_other
        dsimp
        omega
      rw [h1]
      have h2 : slotVal (⟨(acquire st (refs v)).slots,
          st.map ++ [⟨v, st.next, st.next⟩], st.next + 1⟩ : St V) e.tgt =
          slotVal (acquire st (refs v)) e.tgt := rfl
      rw [h2, slotVal_acquire]
      exact inv.keymatch e hm
    · have : e = ⟨v, st.next, st.next⟩ := by simpa using hm
      subst this
      exact slotVal_cons_self _ _ _ _ _ _
  · intro s' hs'
    rcases List.mem_cons.mp hs' with rfl | hmem
    · exact ⟨⟨v, st.next, st.next⟩, by simp, rfl⟩
    · have hshape := slotsShape_acquire st (refs v)
      rcases mem_of_shape hshape hmem with ⟨s2, hs2, hsid, _⟩
      rcases inv.entryOf s2 hs2 with ⟨e, he, htgt⟩
      exact ⟨e, List.mem_append_left _ he, by rw [htgt, hsid]⟩
  · intro s' hs'
    rcases List.mem_cons.mp hs' with rfl | hmem
    · dsimp; omega
    · have hshape := slotsShape_acquire st (refs v)
      rcases mem_of_shape hshape hmem with ⟨s2, hs2, hsid, _⟩
      have := inv.sidLt s2 hs2
      dsimp
      omega
  · intro s' hs'
    rcases List.mem_cons.mp hs' with rfl | hmem
    · intro r hr
      exact hrvlt r hr
    · have hshape := slotsShape_acquire st (refs v)
      rcases mem_of_shape hshape hmem with ⟨s2, hs2, hsid, hval⟩
      rw [← hsid, ← hval]
      exact inv.acy s2 hs2
  · intro i
    rw [strongOf_mk_cons]
    simp only [List.map_cons, List.sum_cons]
    have hsum : ((acquire st (refs v)).slots.map (fun s => (refs s.val).count i)).sum =
        (st.slots.map (fun s => (refs s.val).count i)).sum :=
      refsSum_congr refs (slotsShape_acquire st (refs v)) i
    have hstrong : strongOf (⟨(acquire st (refs v)).slots,
        st.map ++ [⟨v, st.next, st.next⟩], st.next + 1⟩ : St V) i =
        strongOf (acquire st (refs v)) i := rfl
    have hcnt : (st.next :: hs).count i = hs.count i + (if st.next = i then 1 else 0) := by
      rw [List.count_cons]
      simp only [beq_iff_eq]
    rw [hcnt, hsum]
    by_cases hin : i = st.next
    · rw [if_pos (show (⟨st.next, v, 1⟩ : SlotR V).sid = i from hin.symm)]
      rw [if_pos hin.symm]
      have hc1 : hs.count i = 0 := by
        rw [List.count_eq_zero]
        intro hmem
        exact hnextfree i hmem hin
      have hc2 : (refs v).count i = 0 := by
        rw [List.count_eq_zero]
        intro hmem
        have := hrvlt i hmem
        omega
      have hfn : findSlot st i = none := by
        rw [hin]
        exact findSlot_next_none inv.sidLt
      have hacc := inv.acc i
      rw [show strongOf st i = 0 from by unfold strongOf; rw [hfn]] at hacc
      omega
    · rw [if_neg (show ¬((⟨st.next, v, 1⟩ : SlotR V).sid = i) from fun hx => hin hx.symm)]
      rw [if_neg (fun hx => hin hx.symm)]
      rw [hstrong]
      have hacc := inv.acc i
      cases hf : findSlot st i with
      | none =>
        have hl : strongOf (acquire st (refs v)) i = 0 := by
          unfold strongOf
          rw [findSlot_acquire, hf]
          rfl
        have hs0 : strongOf st i = 0 := by unfold strongOf; rw [hf]
        rw [hs0] at hacc
        have hc2 : (refs v).count i = 0 := by
          rw [List.count_eq_zero]
          intro hmem
          have hlv := inv.handleLive (hrv i hmem)
          unfold slotLive at hlv
          rw [hf] at hlv
          cases hlv
        rw [hl]
        omega
      | some s =>
        have hl : strongOf (acquire st (refs v)) i = s.strong + (refs v).count i := by
          unfold strongOf
          rw [findSlot_acquire, hf]
          rfl
        have hs0 : strongOf st i = s.strong := by unfold strongOf; rw [hf]
        rw [hs0] at hacc
        rw [hl]
        omega

theorem invA_hc (refs : V → List Nat) {st : St V} {hs : List Nat}
    (inv : InvA refs st hs) (v : V) (hrv : ∀ r ∈ refs v, r ∈ hs) :
    InvA refs (hashconsV refs true v st).2 ((hashconsV refs true v st).1 :: hs) := by
  rcases hashconsV_cases refs true v st with
    ⟨e, hfind, hlive, heq⟩ | ⟨e, hfind, hlive, heq⟩ | ⟨hfind, heq⟩
  · have h1 : (hashconsV refs true v st).1 = e.tgt := by rw [heq]
    have h2 : (hashconsV refs true v st).2 =
        releaseRefs refs true (incSlot (acquire st (refs v)) e.tgt) (refs v) := by rw [heq]
    rw [h1, h2]
    rw [releaseRefs_safe refs true _ (refs v)
      (safeTodo_after_acquire st (refs v) e.tgt inv.strongPos)]
    have hshape : slotsShape (subCounts (incSlot (acquire st (refs v)) e.tgt) (refs v))
        = slotsShape st := by
      rw [slotsShape_subCounts, slotsShape_incSlot, slotsShape_acquire]
    apply invA_transfer refs inv hshape
    · rw [subCounts_map, incSlot_map, acquire_map]
    · rw [subCounts_next, incSlot_next, acquire_next]
    · have := strongPos_hashconsV refs true v st inv.strongPos
      rw [h2, releaseRefs_safe refs true _ (refs v)
        (safeTodo_after_acquire st (refs v) e.tgt inv.strongPos)] at this
      exact this
    · intro i
      rw [strongOf_hit_path hlive (refs v) i]
      rw [refsSum_congr refs hshape i]
      rw [inv.acc i]
      rw [List.count_cons]
      simp only [beq_iff_eq]
      rcases eq_or_ne i e.tgt with hie | hie
      · rw [if_pos hie, if_pos hie.symm]
        omega
      · rw [if_neg hie, if_neg (fun hx => hie hx.symm)]
        omega
  · exact absurd (inv.maplive e (List.mem_of_find?_eq_some hfind)) (by rw [hlive]; simp)
  · have h1 : (hashconsV refs true v st).1 = st.next := by rw [heq]
    have h2 : (hashconsV refs true v st).2 =
        (⟨⟨st.next, v, 1⟩ :: (acquire st (refs v)).slots,
          st.map ++ [⟨v, st.next, st.next⟩], st.next + 1⟩ : St V) := by rw [heq]
    rw [h1, h2]
    exact invA_vacant refs inv v hrv hfind

omit [DecidableEq V] in
theorem filter_sid_singleton {l : List (SlotR V)}
    (hn : (l.map (fun s => s.sid)).Nodup) {s : SlotR V} (hs : s ∈ l) :
    l.filter (fun x => !decide (x.sid ≠ s.sid)) = [s] := by
  induction l with
  | nil => cases hs
  | cons a l ih =>
    simp only [List.map_cons, List.nodup_cons] at hn
    rcases List.mem_cons.mp hs with rfl | hmem
    · rw [List.filter_cons]
      rw [if_pos (by simp)]
      congr 1
      rw [List.filter_eq_nil_iff]
      intro x hx
      simp only [Bool.not_eq_true', decide_eq_false_iff_not, not_not]
      intro hsid
      exact hn.1 (hsid ▸ List.mem_map_of_mem _ hx)
    · have hne : a.sid ≠ s.sid := by
        intro hsid
        exact hn.1 (hsid ▸ List.mem_map_of_mem _ hmem)
      rw [List.filter_cons]
      rw [if_neg (by simpa using hne)]
      exact ih hn.2 hmem

omit [DecidableEq V] in
theorem refsSum_removeSlot (refs : V → List Nat) {st : St V}
    (hn : (st.slots.map (fun s => s.sid)).Nodup) {s : SlotR V}
    (hmem : s ∈ st.slots) (i : Nat) :
    ((removeSlot st s.sid).slots.map (fun s' => (refs s'.val).count i)).sum
      + (refs s.val).count i
      = (st.slots.map (fun s' => (refs s'.val).count i)).sum := by
  have hpart := sum_map_filter_not_partition st.slots
    (fun s' => (refs s'.val).count i) (fun s' => decide (s'.sid ≠ s.sid))
  have hsingle := filter_sid_singleton hn hmem
  rw [hsingle] at hpart
  simp only [List.map_cons, List.map_nil, List.sum_cons, List.sum_nil] at hpart
  unfold removeSlot
  simp only []
  omega

/-- Invariant preservation through the auto-cleanup drop cascade: the
worklist's pending decrements are accounted in the strong counts. -/
theorem releaseRefs_invA (refs : V → List Nat) (st : St V) (todo : List Nat) :
    ∀ hs : List Nat,
    StrongPos st →
    (st.slots.map (fun s => s.sid)).Nodup →
    (st.map.map (fun e => e.key)).Nodup →
    (∀ e ∈ st.map, e.inst = e.tgt) →
    (∀ e ∈ st.map, slotLive st e.tgt = true) →
    (∀ e ∈ st.map, slotVal st e.tgt = some e.key) →
    (∀ s ∈ st.slots, ∃ e ∈ st.map, e.tgt = s.sid) →
    (∀ s ∈ st.slots, s.sid < st.next) →
    (∀ s ∈ st.slots, ∀ r ∈ refs s.val, r < s.sid) →
    (∀ i, strongOf st i = hs.count i + todo.count i +
      (st.slots.map (fun s => (refs s.val).count i)).sum) →
    InvA refs (releaseRefs refs true st todo) hs := by
  induction st, todo using releaseRefs.induct refs true with
  | case1 st =>
    intro hs hSP hSN hKN hTE hML hKM hEO hLT hAC hACC
    rw [releaseRefs_nil]
    refine ⟨hSP, hSN, hKN, hTE, hML, hKM, hEO, hLT, hAC, ?_⟩
    intro i
    have := hACC i
    simp only [List.count_nil] at this
    omega
  | case2 st r rest hf ih =>
    intro hs hSP hSN hKN hTE hML hKM hEO hLT hAC hACC
    exfalso
    have h0 : strongOf st r = 0 := by unfold strongOf; rw [hf]
    have h1 := hACC r
    have h2 : 1 ≤ (r :: rest).count r := by simp [List.count_cons]
    omega
  | case4 st r rest s hf hstr ih =>
    intro hs hSP hSN hKN hTE hML hKM hEO hLT hAC hACC
    rw [releaseRefs_cons_live refs true st hf hstr]
    have hshape := slotsShape_decSlot st r
    apply ih hs
    · intro s' hs'
      rcases List.mem_map.mp hs' with ⟨s0, hs0, rfl⟩
      by_cases hsid : s0.sid = r
      · rw [if_pos hsid]
        have hs0eq : s0 = s := List.inj_on_of_nodup_map hSN hs0 (findSlot_mem hf)
          (by rw [hsid, findSlot_sid hf])
        subst hs0eq
        dsimp
        omega
      · rw [if_neg hsid]
        exact hSP s0 hs0
    · rw [sids_eq_shape, hshape, ← sids_eq_shape]
      exact hSN
    · exact hKN
    · exact hTE
    · intro e he
      rw [slotLive_shape hshape]
      exact hML e he
    · intro e he
      rw [slotVal_shape hshape]
      exact hKM e he
    · intro s' hs'
      rcases mem_of_shape hshape hs' with ⟨s2, hs2, hsid, _⟩
      rcases hEO s2 hs2 with ⟨e, he, htgt⟩
      exact ⟨e, he, by rw [htgt, hsid]⟩
    · intro s' hs'
      rcases mem_of_shape hshape hs' with ⟨s2, hs2, hsid, _⟩
      rw [show (decSlot st r).next = st.next from rfl, ← hsid]
      exact hLT s2 hs2
    · intro s' hs'
      rcases mem_of_shape hshape hs' with ⟨s2, hs2, hsid, hval⟩
      rw [← hsid, ← hval]
      exact hAC s2 hs2
    · intro i
      rw [strongOf_decSlot]
      rw [refsSum_congr refs hshape i]
      have := hACC i
      rw [List.count_cons] at this
      simp only [beq_iff_eq] at this
      by_cases hir : i = r
      · rw [if_pos hir]
        rw [if_pos (by rw [hir])] at this
        omega
      · rw [if_neg hir]
        rw [if_neg (show ¬ r = i from fun hx => hir hx.symm)] at this
        omega
  | case3 st r rest s hf hstr p st2 extra ih =>
    intro hs hSP hSN hKN hTE hML hKM hEO hLT hAC hACC
    rw [releaseRefs_cons_dead refs true st hf hstr]
    have hsmem : s ∈ st.slots := findSlot_mem hf
    have hsid : s.sid = r := findSlot_sid hf
    have hs1 : s.strong = 1 := by
      have := hSP s hsmem
      omega
    have hsr : strongOf st r = 1 := by
      unfold strongOf; rw [hf]; exact hs1
    have hmapNodup : st.map.Nodup := List.Nodup.of_map _ hKN
    have keyInj : ∀ x ∈ st.map, ∀ y ∈ st.map, x.key = y.key → x = y :=
      fun x hx y hy hxy => List.inj_on_of_nodup_map hKN hx hy hxy
    -- the accounting at r pins down every count
    have haccr := hACC r
    have hcr : 1 ≤ (r :: rest).count r := by simp [List.count_cons]
    have hhs0 : hs.count r = 0 := by omega
    have hsum0 : (st.slots.map (fun s' => (refs s'.val).count r)).sum = 0 := by omega
    have hrest0 : rest.count r = 0 := by
      have : (r :: rest).count r = rest.count r + 1 := by simp [List.count_cons]
      omega
    -- the unique entry for this slot
    rcases hEO s hsmem with ⟨e, he, hetgt⟩
    have hsval : slotVal st r = some s.val := by
      unfold slotVal
      rw [hf]
      rfl
    have hekey : e.key = s.val := by
      have := hKM e he
      rw [hetgt, hsid, hsval] at this
      injection this with h'
      exact h'.symm
    have hfe : st.map.find? (fun e' => decide (e'.key = s.val)) = some e := by
      cases hfx : st.map.find? (fun e' => decide (e'.key = s.val)) with
      | none =>
        rw [List.find?_eq_none] at hfx
        have := hfx e he
        rw [hekey] at this
        simp at this
      | some x =>
        have hx1 : x ∈ st.map := List.mem_of_find?_eq_some hfx
        have hx2 : x.key = s.val := by
          have := List.find?_some hfx
          simpa using this
        rw [keyInj x hx1 e he (by rw [hx2, hekey])]
    -- the drop of the entry
    have heinst : e.inst = r := by rw [hTE e he, hetgt, hsid]
    have hal : instAlive ({ st with map := st.map.eraseP (fun e' => decide (e'.key = s.val)) } : St V) e.inst = true := by
      rw [heinst]
      unfold instAlive
      rw [show slotLive ({ st with map := st.map.eraseP (fun e' => decide (e'.key = s.val)) } : St V) r = true from by
        unfold slotLive
        rw [show findSlot ({ st with map := st.map.eraseP (fun e' => decide (e'.key = s.val)) } : St V) r
          = findSlot st r from rfl, hf]
        rfl]
      rfl
    have hp : p = ({ st with map := st.map.eraseP (fun e' => decide (e'.key = s.val)) }, []) := by
      show dropEntryStep refs true st s.val = _
      unfold dropEntryStep removeEntryByKey
      rw [hfe]
      simp only []
      rw [if_pos hal]
    rcases List.exists_of_eraseP (p := fun e' => decide (e'.key = s.val)) he
      (by simpa using hekey) with ⟨a, l₁, l₂, hl₁, hpa, hsplit, herase⟩
    have hae : a = e := by
      have ha1 : a ∈ st.map := by rw [hsplit]; simp
      have ha2 : a.key = s.val := by simpa using hpa
      exact keyInj a ha1 e he (by rw [ha2, hekey])
    rw [hae] at hsplit
    have hm' : p.1.map = l₁ ++ l₂ := by rw [hp]; exact herase
    have hp2 : p.2 = [] := by rw [hp]
    have hslots1 : p.1.slots = st.slots := by rw [hp]
    have hnext1 : p.1.next = st.next := by rw [hp]
    have hst2slots : st2.slots = st.slots.filter (fun s' => decide (s'.sid ≠ r)) := by
      show (removeSlot p.1 r).slots = _
      unfold removeSlot
      rw [hslots1]
    have hst2map : st2.map = l₁ ++ l₂ := by
      show (removeSlot p.1 r).map = _
      rw [removeSlot_map]
      exact hm'
    have hst2next : st2.next = st.next := by
      show (removeSlot p.1 r).next = _
      rw [removeSlot_next]
      exact hnext1
    have henotin : e ∉ l₁ ++ l₂ := by
      rw [hsplit] at hmapNodup
      rcases List.nodup_append.mp hmapNodup with ⟨hn1, hn2, hdisj⟩
      rw [List.nodup_cons] at hn2
      intro hmem
      rcases List.mem_append.mp hmem with hm1 | hm2
      · exact hdisj hm1 (by simp)
      · exact hn2.1 hm2
    have hsub : ∀ x ∈ l₁ ++ l₂, x ∈ st.map := by
      intro x hx
      rw [hsplit]
      rcases List.mem_append.mp hx with hm1 | hm2
      · exact List.mem_append_left _ hm1
      · exact List.mem_append_right _ (List.mem_cons_of_mem _ hm2)
    have hself : ∀ x ∈ l₁ ++ l₂, x.tgt ≠ r := by
      intro x hx htgt
      have hx1 := hsub x hx
      have hxkey : x.key = s.val := by
        have := hKM x hx1
        rw [htgt, hsval] at this
        injection this with h'
        exact h'.symm
      have : x = e := keyInj x hx1 e he (by rw [hxkey, hekey])
      subst this
      exact henotin hx
    have hextra : extra = refs s.val := by
      show (if instAlive st2 r then ([] : List Nat) else refs s.val) = _
      rw [if_neg]
      intro hal
      unfold instAlive at hal
      rcases Bool.or_eq_true_iff.mp hal with hl | hl
      · unfold slotLive at hl
        have : findSlot st2 r = none := by
          have := findSlot_removeSlot_self p.1 r
          exact this
        rw [this] at hl
        cases hl
      · rw [List.any_eq_true] at hl
        rcases hl with ⟨x, hx, hxi⟩
        simp only [decide_eq_true_eq] at hxi
        rw [hst2map] at hx
        have := hTE x (hsub x hx)
        rw [this] at hxi
        exact hself x hx hxi
    have hlivene : ∀ x, x ≠ r → slotLive st2 x = slotLive st x := by
      intro x hx
      unfold slotLive
      rw [show findSlot st2 x = findSlot st x from by
        have h1 := findSlot_removeSlot_other p.1 hx
        rw [show findSlot p.1 x = findSlot st x from findSlot_congr_slots hslots1 x] at h1
        exact h1]
    have hvalne : ∀ x, x ≠ r → slotVal st2 x = slotVal st x := by
      intro x hx
      unfold slotVal
      rw [show findSlot st2 x = findSlot st x from by
        have h1 := findSlot_removeSlot_other p.1 hx
        rw [show findSlot p.1 x = findSlot st x from findSlot_congr_slots hslots1 x] at h1
        exact h1]
    apply ih hs
    · intro s' hs'
      rw [hst2slots] at hs'
      exact hSP s' (List.mem_of_mem_filter hs')
    · rw [hst2slots]
      exact List.Nodup.sublist (List.Sublist.map _ (List.filter_sublist _)) hSN
    · rw [hst2map]
      have : (l₁ ++ l₂).map (fun e' => e'.key) =
          (l₁.map fun e' => e'.key) ++ (l₂.map fun e' => e'.key) := by
        rw [List.map_append]
      rw [this]
      have hfull : st.map.map (fun e' => e'.key) =
          (l₁.map fun e' => e'.key) ++ (e.key :: (l₂.map fun e' => e'.key)) := by
        rw [hsplit, List.map_append, List.map_cons]
      rw [hfull] at hKN
      apply List.Nodup.sublist _ hKN
      apply List.Sublist.append_left
      exact List.sublist_cons_self _ _
    · intro x hx
      rw [hst2map] at hx
      exact hTE x (hsub x hx)
    · intro x hx
      rw [hst2map] at hx
      rw [hlivene x.tgt (hself x hx)]
      exact hML x (hsub x hx)
    · intro x hx
      rw [hst2map] at hx
      rw [hvalne x.tgt (hself x hx)]
      exact hKM x (hsub x hx)
    · intro s' hs'
      rw [hst2slots] at hs'
      have hmem' := List.mem_of_mem_filter hs'
      have hsid' : s'.sid ≠ r := by
        have := List.of_mem_filter hs'
        simpa using this
      rcases hEO s' hmem' with ⟨e', he', htgt'⟩
      have hene : e' ≠ e := by
        intro hee
        subst hee
        rw [hetgt, hsid] at htgt'
        exact hsid' htgt'.symm
      refine ⟨e', ?_, htgt'⟩
      rw [hst2map]
      rw [hsplit] at he'
      rcases List.mem_append.mp he' with hm1 | hm2
      · exact List.mem_append_left _ hm1
      · rcases List.mem_cons.mp hm2 with hee | hm3
        · exact absurd hee hene
        · exact List.mem_append_right _ hm3
    · intro s' hs'
      rw [hst2slots] at hs'
      rw [hst2next]
      exact hLT s' (List.mem_of_mem_filter hs')
    · intro s' hs'
      rw [hst2slots] at hs'
      exact hAC s' (List.mem_of_mem_filter hs')
    · intro i
      have hrs := refsSum_removeSlot refs hSN hsmem i
      rw [hsid] at hrs
      have hsum2 : (st2.slots.map (fun s' => (refs s'.val).count i)).sum
          + (refs s.val).count i
          = (st.slots.map (fun s' => (refs s'.val).count i)).sum := by
        rw [hst2slots]
        unfold removeSlot at hrs
        simp only [] at hrs
        exact hrs
      have hcnt : (p.2 ++ extra ++ rest).count i = (refs s.val).count i + rest.count i := by
        rw [hp2, hextra]
        simp [List.count_append]
      rw [hcnt]
      by_cases hir : i = r
      · subst hir
        have hstrong2 : strongOf st2 i = 0 := by
          unfold strongOf
          rw [findSlot_removeSlot_self p.1 i]
        have hcrefs : (refs s.val).count i = 0 := by
          have hterm : (refs s.val).count i ≤
              (st.slots.map (fun s' => (refs s'.val).count i)).sum := by
            have : (fun s' => (refs s'.val).count i) s ≤
                (st.slots.map (fun s' => (refs s'.val).count i)).sum := by
              apply List.le_sum_of_mem
              exact List.mem_map_of_mem _ hsmem
            exact this
          omega
        omega
      · have hstrong2 : strongOf st2 i = strongOf st i := by
          unfold strongOf
          rw [show findSlot st2 i = findSlot st i from by
            have h1 := findSlot_removeSlot_other p.1 hir
            rw [show findSlot p.1 i = findSlot st i from findSlot_congr_slots hslots1 i] at h1
            exact h1]
        have hACCi := hACC i
        have hcnt2 : (r :: rest).count i = rest.count i := by
          rw [List.count_cons]
          simp only [beq_iff_eq]
          rw [if_neg (show ¬ r = i from fun hx => hir hx.symm)]
          exact Nat.add_zero _
        rw [hcnt2] at hACCi
        omega

theorem invA_empty (refs : V → List Nat) : InvA refs (St.empty : St V) [] := by
  refine ⟨?_, ?_, ?_, ?_, ?_, ?_, ?_, ?_, ?_, ?_⟩
  · intro s hsm; exact absurd hsm (List.not_mem_nil s)
  · exact List.nodup_nil
  · exact List.nodup_nil
  · intro e he; exact absurd he (List.not_mem_nil e)
  · intro e he; exact absurd he (List.not_mem_nil e)
  · intro e he; exact absurd he (List.not_mem_nil e)
  · intro s hsm; exact absurd hsm (List.not_mem_nil s)
  · intro s hsm; exact absurd hsm (List.not_mem_nil s)
  · intro s hsm; exact absurd hsm (List.not_mem_nil s)
  · intro i; rfl

/-- Dropping one user handle in auto mode preserves the reachability
invariant, with that handle removed from the outstanding-handle multiset. -/
theorem invA_drop (refs : V → List Nat) {st : St V} {hs : List Nat}
    (inv : InvA refs st hs) {h : Nat} (hh : h ∈ hs) :
    InvA refs (dropHandle refs true h st) (hs.erase h) := by
  unfold dropHandle
  apply releaseRefs_invA refs st [h] (hs.erase h) inv.strongPos inv.slotNodup
    inv.keyNodup inv.tgtEq inv.maplive inv.keymatch inv.entryOf inv.sidLt inv.acy
  intro i
  have hacc := inv.acc i
  have hce : (hs.erase h).count i = hs.count i - if h = i then 1 else 0 := by
    rw [List.count_erase]
    simp only [beq_iff_eq]
  have hsing : List.count i [h] = if h = i then 1 else 0 := by
    simp only [List.count_cons, List.count_nil, Nat.zero_add, beq_iff_eq]
  rw [hce, hsing]
  rcases eq_or_ne h i with hih | hih
  · rw [if_pos hih]
    subst hih
    have hpos : 0 < hs.count h := List.count_pos_iff_mem.mpr hh
    omega
  · rw [if_neg hih]
    omega

/-- The states reachable through the public API in the auto-cleanup
configuration, together with the multiset of user handles not yet dropped:
a fresh table, `hashcons` (whose argument may only embed live handles),
`Clone` of a handle, and `Drop` of a handle. -/
inductive ReachA (refs : V → List Nat) : St V → List Nat → Prop where
  | init : ReachA refs St.empty []
  | hc {st : St V} {hs : List Nat} (v : V) : ReachA refs st hs →
      (∀ r ∈ refs v, r ∈ hs) →
      ReachA refs (hashconsV refs true v st).2 ((hashconsV refs true v st).1 :: hs)
  | clone {st : St V} {hs : List Nat} {h : Nat} : ReachA refs st hs → h ∈ hs →
      ReachA refs (incSlot st h) (h :: hs)
  | drp {st : St V} {hs : List Nat} {h : Nat} : ReachA refs st hs → h ∈ hs →
      ReachA refs (dropHandle refs true h st) (hs.erase h)

theorem invA_of_reach (refs : V → List Nat) {st : St V} {hs : List Nat}
    (hr : ReachA refs st hs) : InvA refs st hs := by
  induction hr with
  | init => exact invA_empty refs
  | hc v _ hrv ih => exact invA_hc refs ih v hrv
  | clone _ hh ih => exact invA_clone refs ih hh
  | drp _ hh ih => exact invA_drop refs ih hh

/-! ## A concrete value type (the shape of the test suite's `BoolExpr`) -/

/-- A concrete value type: leaves carry a payload, nodes carry two nested
interned handles, recorded by slot id. -/
inductive Val where
  | leaf (n : Nat)
  | node (a b : Nat)
deriving DecidableEq

/-- The slot ids a `Val` strongly references through its nested handles. -/
def vrefs : Val → List Nat
  | Val.leaf _ => []
  | Val.node a b => [a, b]

/-- C4: in the auto-cleanup configuration, once every handle the table API
handed out (`hashcons` results and their clones) has been dropped, `len()`
returns 0 — each last-handle drop removed its entry — and no slot
allocation survives. -/
theorem c4_auto_cleanup_complete (refs : V → List Nat) {st : St V}
    (hr : ReachA refs st []) : lenT st = 0 ∧ st.slots = [] := by
  rcases invA_empty_handles refs (invA_of_reach refs hr) with ⟨hslots, hmap⟩
  refine ⟨?_, hslots⟩
  unfold lenT
  rw [hmap]
  rfl

theorem c4_auto_cleanup_complete_witness :
    ReachA vrefs (dropHandle vrefs true 0 (hashconsV vrefs true (Val.leaf 7) St.empty).2) [] ∧
    (lenT (dropHandle vrefs true 0 (hashconsV vrefs true (Val.leaf 7) St.empty).2) = 0 ∧
      (dropHandle vrefs true 0 (hashconsV vrefs true (Val.leaf 7) St.empty).2).slots = []) := by
  have h1 : ReachA vrefs (hashconsV vrefs true (Val.leaf 7) St.empty).2
      [(hashconsV vrefs true (Val.leaf 7) St.empty).1] :=
    ReachA.hc (Val.leaf 7) ReachA.init (by intro r hr; simp [vrefs] at hr)
  have h0 : (hashconsV vrefs true (Val.leaf 7) St.empty).1 = 0 := by decide
  rw [h0] at h1
  have h2 := ReachA.drp h1 (List.mem_singleton.mpr rfl)
  have h3 : (([0] : List Nat).erase 0) = [] := by decide
  rw [h3] at h2
  exact ⟨h2, c4_auto_cleanup_complete vrefs h2⟩

/-! ## The handle's trait implementations (C7) -/

/-- `Hc<T>` as its trait implementations see it: `ptr` is the `Rc`/`Arc`
allocation identity (what `Rc::ptr_eq` would compare), `elem` is the wrapped
value the implementations actually read (`self.inner.elem`). -/
structure Hc (T : Type) where
  ptr : Nat
  elem : T
deriving DecidableEq

/-- `impl PartialEq for Hc`: `self.inner.elem == other.inner.elem`. -/
def hcEq {T : Type} (beqT : T → T → Bool) (a b : Hc T) : Bool :=
  beqT a.elem b.elem

/-- `impl Hash for Hc`: `self.inner.elem.hash(state)`. -/
def hcHash {T : Type} (hashT : T → Nat) (a : Hc T) : Nat :=
  hashT a.elem

/-- `impl PartialOrd for Hc`: `self.inner.elem.partial_cmp(&other.inner.elem)`. -/
def hcPartialCmp {T : Type} (pcT : T → T → Option Ordering) (a b : Hc T) :
    Option Ordering :=
  pcT a.elem b.elem

/-- `impl Ord for Hc`: `self.inner.elem.cmp(&other.inner.elem)`. -/
def hcCmpOrd {T : Type} (cT : T → T → Ordering) (a b : Hc T) : Ordering :=
  cT a.elem b.elem

/-- C7: hashing a handle hashes the wrapped value, and equality, partial
order and total order on handles return exactly the same comparison applied
to the wrapped values; all four are invariant under changing the allocation
pointers, so none of them is pointer identity. -/
theorem c7_trait_delegation {T : Type} (hashT : T → Nat) (beqT : T → T → Bool)
    (pcT : T → T → Option Ordering) (cT : T → T → Ordering) (a b : Hc T)
    (p1 p2 : Nat) :
    hcHash hashT a = hashT a.elem ∧
    hcEq beqT a b = beqT a.elem b.elem ∧
    hcPartialCmp pcT a b = pcT a.elem b.elem ∧
    hcCmpOrd cT a b = cT a.elem b.elem ∧
    hcEq beqT ⟨p1, a.elem⟩ ⟨p2, b.elem⟩ = hcEq beqT a b ∧
    hcHash hashT ⟨p1, a.elem⟩ = hcHash hashT a ∧
    hcPartialCmp pcT ⟨p1, a.elem⟩ ⟨p2, b.elem⟩ = hcPartialCmp pcT a b ∧
    hcCmpOrd cT ⟨p1, a.elem⟩ ⟨p2, b.elem⟩ = hcCmpOrd cT a b :=
  ⟨rfl, rfl, rfl, rfl, rfl, rfl, rfl, rfl⟩

/-- C8: `cleanup()` is idempotent: a second call immediately after a first
removes nothing. The thread-safe sweep's result is a fixed point of the
sweep, so `len()` is unchanged by the second call; a single-threaded sweep
that returned without panicking returns its input unchanged when repeated. -/
theorem c8_cleanup_idempotent (refs : V → List Nat) (st st' : St V) :
    cleanupTS refs (cleanupTS refs st) = cleanupTS refs st ∧
    lenT (cleanupTS refs (cleanupTS refs st)) = lenT (cleanupTS refs st) ∧
    (cleanupST refs st = some st' → cleanupST refs st' = some st') :=
  ⟨cleanupTS_idem refs st, by rw [cleanupTS_idem], fun h => cleanupST_idem refs h⟩

/-- C3 (amended): the thread-safe manual sweep iterates until no stale entry
is left — its result contains none. The single-threaded sweep is a single
`retain` pass under the `RefCell` borrow: it panics (modelled `none`) when
dropping a removed key cascades into another slot's death, and when it does
return, its result likewise contains no stale entry. -/
theorem c3_cleanup_sweeps (refs : V → List Nat) (st st' : St V) :
    staleEntries (cleanupTS refs st) = [] ∧
    (cleanupST refs st = some st' → staleEntries st' = []) :=
  ⟨cleanupTS_staleFree refs st, fun h => cleanupST_some_staleFree refs h⟩

/-- C3 counterexample to the original claim: the state reached, in the manual
configuration, by `hashcons(leaf 0)`, `hashcons(node 0 0)` and dropping both
handles. The single-threaded `cleanup()` does not iterate to a fixed point:
its single pass removes the stale `node 0 0` entry, and dropping that key's
nested handles brings slot 0 to strong count 0, whose `Inner::drop` hits the
re-entrant `borrow_mut` panic (modelled `none`). The thread-safe loop on the
same state reaches the fixed point and empties the table. -/
theorem c3_single_pass_counterexample :
    dropHandle vrefs false 0 (dropHandle vrefs false 1
        (runSeq vrefs false [Val.leaf 0, Val.node 0 0])) =
      (⟨[⟨0, Val.leaf 0, 2⟩], [⟨Val.leaf 0, 0, 0⟩, ⟨Val.node 0 0, 1, 1⟩], 2⟩ : St Val) ∧
    cleanupST vrefs
        (⟨[⟨0, Val.leaf 0, 2⟩], [⟨Val.leaf 0, 0, 0⟩, ⟨Val.node 0 0, 1, 1⟩], 2⟩ : St Val) =
      none ∧
    cleanupTS vrefs
        (⟨[⟨0, Val.leaf 0, 2⟩], [⟨Val.leaf 0, 0, 0⟩, ⟨Val.node 0 0, 1, 1⟩], 2⟩ : St Val) =
      (⟨[], [], 2⟩ : St Val) := by
  refine ⟨?_, by decide, ?_⟩
  · have hd1 : dropHandle vrefs false 1 (runSeq vrefs false [Val.leaf 0, Val.node 0 0]) =
        (⟨[⟨0, Val.leaf 0, 3⟩], [⟨Val.leaf 0, 0, 0⟩, ⟨Val.node 0 0, 1, 1⟩], 2⟩ : St Val) := by
      show releaseRefs vrefs false
        (⟨[⟨1, Val.node 0 0, 1⟩, ⟨0, Val.leaf 0, 3⟩],
          [⟨Val.leaf 0, 0, 0⟩, ⟨Val.node 0 0, 1, 1⟩], 2⟩ : St Val) [1] = _
      rw [releaseRefs_cons_dead vrefs false _
        (show findSlot (⟨[⟨1, Val.node 0 0, 1⟩, ⟨0, Val.leaf 0, 3⟩],
          [⟨Val.leaf 0, 0, 0⟩, ⟨Val.node 0 0, 1, 1⟩], 2⟩ : St Val) 1 =
          some ⟨1, Val.node 0 0, 1⟩ from rfl) (by decide)]
      show releaseRefs vrefs false
        (⟨[⟨0, Val.leaf 0, 3⟩], [⟨Val.leaf 0, 0, 0⟩, ⟨Val.node 0 0, 1, 1⟩], 2⟩ : St Val) [] = _
      rw [releaseRefs_nil]
    rw [hd1]
    show releaseRefs vrefs false
      (⟨[⟨0, Val.leaf 0, 3⟩], [⟨Val.leaf 0, 0, 0⟩, ⟨Val.node 0 0, 1, 1⟩], 2⟩ : St Val) [0] = _
    rw [releaseRefs_cons_live vrefs false _
      (show findSlot (⟨[⟨0, Val.leaf 0, 3⟩],
        [⟨Val.leaf 0, 0, 0⟩, ⟨Val.node 0 0, 1, 1⟩], 2⟩ : St Val) 0 =
        some ⟨0, Val.leaf 0, 3⟩ from rfl) (by decide)]
    show releaseRefs vrefs false
      (⟨[⟨0, Val.leaf 0, 2⟩], [⟨Val.leaf 0, 0, 0⟩, ⟨Val.node 0 0, 1, 1⟩], 2⟩ : St Val) [] = _
    rw [releaseRefs_nil]
  · rw [cleanupTS]
    rw [if_neg (by decide)]
    rw [show sweepRelease vrefs
        ({ (⟨[⟨0, Val.leaf 0, 2⟩], [⟨Val.leaf 0, 0, 0⟩, ⟨Val.node 0 0, 1, 1⟩], 2⟩ : St Val) with
          map := keptEntries (⟨[⟨0, Val.leaf 0, 2⟩],
            [⟨Val.leaf 0, 0, 0⟩, ⟨Val.node 0 0, 1, 1⟩], 2⟩ : St Val) })
        (staleEntries (⟨[⟨0, Val.leaf 0, 2⟩],
          [⟨Val.leaf 0, 0, 0⟩, ⟨Val.node 0 0, 1, 1⟩], 2⟩ : St Val)) =
        (⟨[], [⟨Val.leaf 0, 0, 0⟩], 2⟩ : St Val) from by
      show releaseRefs vrefs false
        (⟨[⟨0, Val.leaf 0, 2⟩], [⟨Val.leaf 0, 0, 0⟩], 2⟩ : St Val) [0, 0] = _
      rw [releaseRefs_cons_live vrefs false _
        (show findSlot (⟨[⟨0, Val.leaf 0, 2⟩], [⟨Val.leaf 0, 0, 0⟩], 2⟩ : St Val) 0 =
          some ⟨0, Val.leaf 0, 2⟩ from rfl) (by decide)]
      show releaseRefs vrefs false
        (⟨[⟨0, Val.leaf 0, 1⟩], [⟨Val.leaf 0, 0, 0⟩], 2⟩ : St Val) [0] = _
      rw [releaseRefs_cons_dead vrefs false _
        (show findSlot (⟨[⟨0, Val.leaf 0, 1⟩], [⟨Val.leaf 0, 0, 0⟩], 2⟩ : St Val) 0 =
          some ⟨0, Val.leaf 0, 1⟩ from rfl) (by decide)]
      show releaseRefs vrefs false (⟨[], [⟨Val.leaf 0, 0, 0⟩], 2⟩ : St Val) [] = _
      rw [releaseRefs_nil]]
    rw [cleanupTS]
    rw [if_neg (by decide)]
    rw [show sweepRelease vrefs
        ({ (⟨[], [⟨Val.leaf 0, 0, 0⟩], 2⟩ : St Val) with
          map := keptEntries (⟨[], [⟨Val.leaf 0, 0, 0⟩], 2⟩ : St Val) })
        (staleEntries (⟨[], [⟨Val.leaf 0, 0, 0⟩], 2⟩ : St Val)) =
        (⟨[], [], 2⟩ : St Val) from by
      show releaseRefs vrefs false (⟨[], [], 2⟩ : St Val) [] = _
      rw [releaseRefs_nil]]
    rw [cleanupTS]
    rw [if_pos (by decide)]

/-- C2: the claimed frame effect fails in the single-threaded variant. Its
`impl Drop for Inner` is not gated on the `auto-cleanup` feature, so in the
manual configuration too the drop of the last handle removes the entry from
the map. Replaying the prefix of `test_manual_cleanup_effectiveness` (three
interned values, then dropping the `node` handle): `len()` is 3 before the
drop and 2 after, where the claim — and that test's own assertion — require
it to stay 3. -/
theorem c2_st_manual_drop_removes_entry :
    lenT (runSeq vrefs true [Val.leaf 0, Val.leaf 1, Val.node 0 1]) = 3 ∧
    lenT (dropHandle vrefs true 2
        (runSeq vrefs true [Val.leaf 0, Val.leaf 1, Val.node 0 1])) = 2 ∧
    (dropHandle vrefs true 2
        (runSeq vrefs true [Val.leaf 0, Val.leaf 1, Val.node 0 1])).map =
      [⟨Val.leaf 0, 0, 0⟩, ⟨Val.leaf 1, 1, 1⟩] := by
  have hdrop : dropHandle vrefs true 2
      (runSeq vrefs true [Val.leaf 0, Val.leaf 1, Val.node 0 1]) =
      (⟨[⟨1, Val.leaf 1, 1⟩, ⟨0, Val.leaf 0, 1⟩],
        [⟨Val.leaf 0, 0, 0⟩, ⟨Val.leaf 1, 1, 1⟩], 3⟩ : St Val) := by
    show releaseRefs vrefs true
      (⟨[⟨2, Val.node 0 1, 1⟩, ⟨1, Val.leaf 1, 2⟩, ⟨0, Val.leaf 0, 2⟩],
        [⟨Val.leaf 0, 0, 0⟩, ⟨Val.leaf 1, 1, 1⟩, ⟨Val.node 0 1, 2, 2⟩], 3⟩ : St Val) [2] = _
    rw [releaseRefs_cons_dead vrefs true _
      (show findSlot (⟨[⟨2, Val.node 0 1, 1⟩, ⟨1, Val.leaf 1, 2⟩, ⟨0, Val.leaf 0, 2⟩],
        [⟨Val.leaf 0, 0, 0⟩, ⟨Val.leaf 1, 1, 1⟩, ⟨Val.node 0 1, 2, 2⟩], 3⟩ : St Val) 2 =
        some ⟨2, Val.node 0 1, 1⟩ from rfl) (by decide)]
    show releaseRefs vrefs true
      (⟨[⟨1, Val.leaf 1, 2⟩, ⟨0, Val.leaf 0, 2⟩],
        [⟨Val.leaf 0, 0, 0⟩, ⟨Val.leaf 1, 1, 1⟩], 3⟩ : St Val) [0, 1] = _
    rw [releaseRefs_cons_live vrefs true _
      (show findSlot (⟨[⟨1, Val.leaf 1, 2⟩, ⟨0, Val.leaf 0, 2⟩],
        [⟨Val.leaf 0, 0, 0⟩, ⟨Val.leaf 1, 1, 1⟩], 3⟩ : St Val) 0 =
        some ⟨0, Val.leaf 0, 2⟩ from rfl) (by decide)]
    show releaseRefs vrefs true
      (⟨[⟨1, Val.leaf 1, 2⟩, ⟨0, Val.leaf 0, 1⟩],
        [⟨Val.leaf 0, 0, 0⟩, ⟨Val.leaf 1, 1, 1⟩], 3⟩ : St Val) [1] = _
    rw [releaseRefs_cons_live vrefs true _
      (show findSlot (⟨[⟨1, Val.leaf 1, 2⟩, ⟨0, Val.leaf 0, 1⟩],
        [⟨Val.leaf 0, 0, 0⟩, ⟨Val.leaf 1, 1, 1⟩], 3⟩ : St Val) 1 =
        some ⟨1, Val.leaf 1, 2⟩ from rfl) (by decide)]
    show releaseRefs vrefs true
      (⟨[⟨1, Val.leaf 1, 1⟩, ⟨0, Val.leaf 0, 1⟩],
        [⟨Val.leaf 0, 0, 0⟩, ⟨Val.leaf 1, 1, 1⟩], 3⟩ : St Val) [] = _
    rw [releaseRefs_nil]
  refine ⟨rfl, ?_, ?_⟩
  · rw [hdrop]
    rfl
  · rw [hdrop]

theorem c1_dedup_witness :
    StrongPos (St.empty : St Val) ∧
    ((hashconsV vrefs false (Val.leaf 0) (hashconsV vrefs false (Val.leaf 0) St.empty).2).1 =
        (hashconsV vrefs false (Val.leaf 0) St.empty).1 ∧
      slotVal (hashconsV vrefs false (Val.leaf 0) (hashconsV vrefs false (Val.leaf 0) St.empty).2).2
          (hashconsV vrefs false (Val.leaf 0) (hashconsV vrefs false (Val.leaf 0) St.empty).2).1 =
        slotVal (hashconsV vrefs false (Val.leaf 0) (hashconsV vrefs false (Val.leaf 0) St.empty).2).2
          (hashconsV vrefs false (Val.leaf 0) St.empty).1) :=
  ⟨(by intro s hsm; exact absurd hsm (List.not_mem_nil s)),
    c1_dedup vrefs false (Val.leaf 0) St.empty
      (by intro s hsm; exact absurd hsm (List.not_mem_nil s))⟩

theorem c9_get_witness :
    StrongPos (St.empty : St Val) ∧ KeyMatch (St.empty : St Val) ∧
    slotVal (hashconsV vrefs false (Val.leaf 3) St.empty).2
      (hashconsV vrefs false (Val.leaf 3) St.empty).1 = some (Val.leaf 3) :=
  ⟨(by intro s hsm; exact absurd hsm (List.not_mem_nil s)),
    (by intro e he; exact absurd he (List.not_mem_nil e)),
    c9_get vrefs false (Val.leaf 3) St.empty
      (by intro s hsm; exact absurd hsm (List.not_mem_nil s))
      (by intro e he; exact absurd he (List.not_mem_nil e))⟩

theorem c6_stale_reintern_witness :
    (⟨[], [⟨Val.leaf 0, 0, 0⟩], 1⟩ : St Val).map.find?
        (fun e' => decide (e'.key = Val.leaf 0)) = some (⟨Val.leaf 0, 0, 0⟩ : EntryR Val) ∧
    slotLive (⟨[], [⟨Val.leaf 0, 0, 0⟩], 1⟩ : St Val) 0 = false ∧
    (intern vrefs false (Val.leaf 0) (⟨[], [⟨Val.leaf 0, 0, 0⟩], 1⟩ : St Val) =
        (1, ⟨[⟨1, Val.leaf 0, 1⟩], [⟨Val.leaf 0, 1, 0⟩], 2⟩) ∧
      lenT (intern vrefs false (Val.leaf 0) (⟨[], [⟨Val.leaf 0, 0, 0⟩], 1⟩ : St Val)).2 =
        lenT (⟨[], [⟨Val.leaf 0, 0, 0⟩], 1⟩ : St Val) ∧
      (intern vrefs false (Val.leaf 0) (⟨[], [⟨Val.leaf 0, 0, 0⟩], 1⟩ : St Val)).2.map.find?
          (fun e' => decide (e'.key = Val.leaf 0)) = some (⟨Val.leaf 0, 1, 0⟩ : EntryR Val) ∧
      slotLive (intern vrefs false (Val.leaf 0) (⟨[], [⟨Val.leaf 0, 0, 0⟩], 1⟩ : St Val)).2 1 = true ∧
      strongOf (intern vrefs false (Val.leaf 0) (⟨[], [⟨Val.leaf 0, 0, 0⟩], 1⟩ : St Val)).2 1 = 1 ∧
      slotVal (intern vrefs false (Val.leaf 0) (⟨[], [⟨Val.leaf 0, 0, 0⟩], 1⟩ : St Val)).2 1 =
        some (Val.leaf 0)) := by
  have hfind : (⟨[], [⟨Val.leaf 0, 0, 0⟩], 1⟩ : St Val).map.find?
      (fun e' => decide (e'.key = Val.leaf 0)) = some (⟨Val.leaf 0, 0, 0⟩ : EntryR Val) := by
    decide
  have hdead : slotLive (⟨[], [⟨Val.leaf 0, 0, 0⟩], 1⟩ : St Val) 0 = false := by decide
  exact ⟨hfind, hdead, c6_stale_reintern vrefs false (Val.leaf 0) _ hfind hdead⟩

/-- A table whose `leaf 0` slot is pinned by one live user handle while the
table itself also references it twice: once from the live `node 0 1` slot and
once from the stale `node 0 5` entry's key (so `strongOf 0 = 3` while
`refsOwned 0 = 2`). -/
def stPinned : St Val :=
  ⟨[⟨0, Val.leaf 0, 3⟩, ⟨1, Val.leaf 1, 1⟩, ⟨2, Val.node 0 1, 1⟩],
    [⟨Val.leaf 0, 0, 0⟩, ⟨Val.leaf 1, 1, 1⟩, ⟨Val.node 0 1, 2, 2⟩, ⟨Val.node 0 5, 3, 3⟩], 4⟩

/-- The result of the single-threaded `cleanup()` on `stPinned`: the stale
entry is gone and its key's reference to slot 0 released. -/
def stPinnedST : St Val :=
  ⟨[⟨0, Val.leaf 0, 2⟩, ⟨1, Val.leaf 1, 1⟩, ⟨2, Val.node 0 1, 1⟩],
    [⟨Val.leaf 0, 0, 0⟩, ⟨Val.leaf 1, 1, 1⟩, ⟨Val.node 0 1, 2, 2⟩], 4⟩

theorem c10_cleanup_preserves_live_witness :
    OwnInv stPinned ∧
    refsOwned vrefs stPinned 0 < strongOf stPinned 0 ∧
    slotLive (cleanupTS vrefs stPinned) 0 = true ∧
    (⟨Val.leaf 0, 0, 0⟩ : EntryR Val) ∈ (cleanupTS vrefs stPinned).map ∧
    (hashconsV vrefs false (Val.leaf 0) (cleanupTS vrefs stPinned)).1 = 0 ∧
    cleanupST vrefs stPinned = some stPinnedST ∧
    slotLive stPinnedST 0 = true ∧
    (⟨Val.leaf 0, 0, 0⟩ : EntryR Val) ∈ stPinnedST.map ∧
    (hashconsV vrefs false (Val.leaf 0) stPinnedST).1 = 0 := by
  have hown : OwnInv stPinned := ⟨by decide, by decide, by decide⟩
  have h10 := c10_cleanup_preserves_live vrefs stPinned 0 ⟨Val.leaf 0, 0, 0⟩
    hown (by decide) (by decide) rfl (by decide)
  have hst := h10.2 stPinnedST (by decide)
  exact ⟨hown, by decide, h10.1.2.1, h10.1.2.2.1, h10.1.2.2.2, by decide,
    hst.2.1, hst.2.2.1, hst.2.2.2⟩

end HashCons
